import Mathlib

/-!
Verification of the label-explainer repository.

Strings are embedded as lists of characters (`Str`), so that every
operation of the source (trimming, splitting, fence stripping, tab
parsing) is an executable, decidable Lean function mirroring the
TypeScript code in `src/utils/common.ts`, `src/services/batch-processor.ts`,
`src/services/checkpoint.ts`, `src/services/excel.ts` and `src/compare.ts`.
JavaScript objects and Maps used only through get/set are embedded as
association lists with in-place-update-or-append semantics (`jsSet`), which
is observationally the same as the JS behaviour (update keeps the key
position, new keys are appended).
-/

namespace LabelExplainer

/-- A JavaScript string, embedded as its list of characters. -/
abbrev Str := List Char

/-- `BATCH_SIZE` from src/utils/common.ts. -/
def BATCH_SIZE : Nat := 100

/-- `MAX_RETRIES` from src/utils/common.ts. -/
def MAX_RETRIES : Nat := 3

/-- `RETRY_DELAY_MS` from src/utils/common.ts (milliseconds). -/
def RETRY_DELAY_MS : Nat := 2000

/-- The whitespace class used by the regexes and by trimming
(the characters of the JavaScript class relevant to this code base). -/
def jsWs (c : Char) : Bool :=
  c == ' ' || c == '\t' || c == '\n' || c == '\r' || c == '\x0b' || c == '\x0c'

/-- `pat.isPrefix-like` test: does `s` start with the pattern `pat`?
Embeds JavaScript `s.startsWith(pat)`. -/
def strStarts : Str → Str → Bool
  | [], _ => true
  | _ :: _, [] => false
  | p :: ps, c :: cs => p == c && strStarts ps cs

/-- Drop trailing whitespace characters (the right half of `String.trim`). -/
def dropTrailingWs : Str → Str
  | [] => []
  | c :: rest =>
    match dropTrailingWs rest with
    | [] => if jsWs c then [] else [c]
    | r => c :: r

/-- JavaScript `s.trim()`. -/
def trimChars (s : Str) : Str := dropTrailingWs (s.dropWhile jsWs)

/-- JavaScript `s.split(sep)` for a single-character separator. -/
def splitOnChar (sep : Char) : Str → List Str
  | [] => [[]]
  | c :: rest =>
    if c == sep then [] :: splitOnChar sep rest
    else
      match splitOnChar sep rest with
      | l :: ls => (c :: l) :: ls
      | [] => [[c]]

/-- Join lines with a newline separator (inverse of splitting on newline). -/
def unlines : List Str → Str
  | [] => []
  | [l] => l
  | l :: ls => l ++ '\n' :: unlines ls

/-- Does the string consist of a closing code fence followed only by
whitespace? The tail condition of the regex of `cleanTsvOutput`. -/
def fenceAtEnd (s : Str) : Bool :=
  strStarts "```".data s && (s.drop 3).all jsWs

/-- First replacement of `cleanTsvOutput`: strip a leading code-fence
marker and the whitespace that follows it. -/
def stripOpeningFence (s : Str) : Str :=
  if strStarts "```tsv".data s then (s.drop 6).dropWhile jsWs else s

/-- Second replacement of `cleanTsvOutput`: remove, at the first position
where it matches, an optional newline followed by a closing fence and
trailing whitespace reaching the end of the string. -/
def stripClosingFence : Str → Str
  | [] => []
  | c :: rest =>
    if c == '\n' && fenceAtEnd rest then []
    else if fenceAtEnd (c :: rest) then []
    else c :: stripClosingFence rest

/-- `cleanTsvOutput` from src/utils/common.ts: strip an optional leading
fenced-code marker, an optional trailing fenced-code marker, then trim. -/
def cleanTsvOutput (s : Str) : Str :=
  trimChars (stripClosingFence (stripOpeningFence s))

/-- A parsed row of a classification response: the three first
tab-separated fields of a response line. -/
structure ParsedRow where
  text : Str
  label : Str
  explanation : Str
deriving DecidableEq, Repr

/-- A parsed row of an explanation response: fields 1 and 3 of a line. -/
structure ExplRow where
  text : Str
  explanation : Str
deriving DecidableEq, Repr

/-- The per-line filter of the response parsers: a line is kept unless it
re-emits the header (starts with "text") or is blank after trimming. -/
def keepLine (line : Str) : Bool :=
  !strStarts "text".data line && !(trimChars line).isEmpty

/-- The per-line treatment of the response parsing loops
(src/services/batch-processor.ts): skip a line that re-emits the header
(starts with "text") or is blank after trimming, split the rest on tab
and keep the first three fields when at least three are present. -/
def parseLine (line : Str) : Option ParsedRow :=
  if strStarts "text".data line then none
  else if (trimChars line).isEmpty then none
  else
    match splitOnChar '\t' line with
    | t :: lab :: ex :: _ => some ⟨t, lab, ex⟩
    | _ => none

/-- The response parsing loop of `classifyAndExplainStance`
(src/services/batch-processor.ts): clean the raw text, split on newline,
and parse each line. -/
def parseClassificationOutput (raw : Str) : List ParsedRow :=
  (splitOnChar '\n' (cleanTsvOutput raw)).filterMap parseLine

/-- The response parsing loop of `explainStanceLabels`
(src/services/batch-processor.ts): same as classification parsing but a
row keeps only fields 1 and 3. -/
def parseExplanationOutput (raw : Str) : List ExplRow :=
  (splitOnChar '\n' (cleanTsvOutput raw)).filterMap fun line =>
    (parseLine line).map fun r => ⟨r.text, r.explanation⟩

/-- The batching loop shared by `explainStanceLabels` and
`classifyAndExplainStance`: the source starts from `[[]]`, pushes each row
into the last batch and opens a fresh empty batch whenever the running
line count reaches the batch size.  `cur` is the reversed content of the
batch being filled and `lineCount` its size. -/
def makeBatchesGo (B : Nat) : List α → List α → Nat → List (List α)
  | [], cur, _ => [cur.reverse]
  | r :: rest, cur, lineCount =>
    if lineCount + 1 == B then (r :: cur).reverse :: makeBatchesGo B rest [] 0
    else makeBatchesGo B rest (r :: cur) (lineCount + 1)

/-- The batch splitter of src/services/batch-processor.ts with batch size
`B` (the source uses `BATCH_SIZE = 100`). -/
def makeBatches (B : Nat) (rows : List α) : List (List α) :=
  makeBatchesGo B rows [] 0

/-- Assignment into a JavaScript object or Map used as a dictionary:
update the value in place when the key is present (keeping its position),
append a fresh entry otherwise. -/
def jsSet : List (Str × α) → Str → α → List (Str × α)
  | [], k, v => [(k, v)]
  | p :: rest, k, v => if p.1 = k then (k, v) :: rest else p :: jsSet rest k v

/-- Key lookup in a JavaScript object or Map embedded as an association
list: the value at the first entry with the key, if any. -/
def jsLookup (m : List (Str × α)) (k : Str) : Option α :=
  (m.find? fun p => decide (p.1 = k)).map (·.2)

/-- One outcome of the external `generateText` call: the produced text, or
a thrown error tagged with whether `processBatchWithRetry` would classify
it as retryable (timeout, rate limit, 503). -/
inductive CallOutcome where
  | ok (text : Str)
  | err (retryable : Bool)
deriving DecidableEq, Repr

/-- The attempt loop of `processBatchWithRetry`
(src/services/batch-processor.ts): `call a` is the outcome of the a-th
external attempt; `attempt` is the loop counter, `slept` the milliseconds
slept so far and `fuel` the number of loop iterations still allowed
(`retries + 1 - attempt`, so the loop guard `attempt <= retries` is
exactly `fuel > 0`).  Returns the result (`none` embeds the null of the
source — the wrapper never throws), the number of attempts made, and the
total sleep time. -/
def processBatchGo (call : Nat → CallOutcome) (retries : Nat) :
    Nat → Nat → Nat → Option Str × Nat × Nat
  | attempt, slept, 0 => (none, attempt - 1, slept)
  | attempt, slept, fuel + 1 =>
    match call attempt with
    | .ok t => (some t, attempt, slept)
    | .err r =>
      if r ∧ attempt < retries then
        processBatchGo call retries (attempt + 1)
          (slept + RETRY_DELAY_MS * attempt) fuel
      else (none, attempt, slept)

/-- `processBatchWithRetry` (src/services/batch-processor.ts): up to
`retries` attempts of the external call starting at attempt 1, sleeping
`RETRY_DELAY_MS * attempt` after a retryable failure at attempt numbers
below `retries`.  The source passes `MAX_RETRIES` for `retries`. -/
def processBatchWithRetry (call : Nat → CallOutcome) (retries : Nat) :
    Option Str × Nat × Nat :=
  processBatchGo call retries 1 0 retries

/-- `CheckpointData` from src/services/checkpoint.ts.  `results` is the
JSON object mapping batch indices to raw response text, embedded as an
association list read through `lookupResult`. -/
structure CheckpointData where
  processedBatches : List Nat
  results : List (Nat × Str)
  target : Str
  language : Str
  action : Str
  totalBatches : Nat
  modelType : Str
  lastUpdated : Str
deriving DecidableEq, Repr

/-- Read `results[i]` of a checkpoint record. -/
def lookupResult (rs : List (Nat × Str)) (i : Nat) : Option Str :=
  (rs.find? fun p => decide (p.1 = i)).map (·.2)

/-- `saveBatchResult` (src/services/checkpoint.ts), without the file
write: push the index onto `processedBatches`, assign
`results[batchIndex]`, refresh `lastUpdated`. -/
def saveBatchResult (cp : CheckpointData) (batchIndex : Nat) (result : Str)
    (now : Str) : CheckpointData :=
  { cp with
    processedBatches := cp.processedBatches ++ [batchIndex]
    results := (batchIndex, result) :: cp.results
    lastUpdated := now }

/-- The fresh checkpoint record created by the orchestrator when no
checkpoint was loaded. -/
def initialCheckpoint (target language action : Str) (totalBatches : Nat)
    (modelType now : Str) : CheckpointData :=
  ⟨[], [], target, language, action, totalBatches, modelType, now⟩

/-- The record the orchestrator works with: the loaded one when present,
otherwise a fresh one whose `totalBatches` is the computed batch count. -/
def effectiveCheckpoint (checkpoint0 : Option CheckpointData)
    (target language action : Str) (totalBatches : Nat)
    (modelType now : Str) : CheckpointData :=
  match checkpoint0 with
  | none => initialCheckpoint target language action totalBatches modelType now
  | some c => c

/-- Result of one batch promise of the orchestrator
(src/services/batch-processor.ts). -/
structure BatchOutcome where
  index : Nat
  result : Option Str
  skipped : Bool
deriving DecidableEq, Repr

/-- The per-batch promises of the orchestrator, in batch-index order: a
batch already in `processedBatches` is skipped and its stored raw text is
reused; otherwise the external call is invoked exactly once
(`call i 1` is attempt 1 for batch `i`) and a success is saved to the
checkpoint immediately, while any thrown error is caught and yields a
null result for this run.  Returns the final checkpoint record, the
outcome list and the number of external calls issued. -/
def runBatches (call : Nat → Nat → CallOutcome) (now : Str) :
    List Nat → CheckpointData → CheckpointData × List BatchOutcome × Nat
  | [], cp => (cp, [], 0)
  | i :: rest, cp =>
    if i ∈ cp.processedBatches then
      let r := runBatches call now rest cp
      (r.1, ⟨i, lookupResult cp.results i, true⟩ :: r.2.1, r.2.2)
    else
      match call i 1 with
      | .ok t =>
        let r := runBatches call now rest (saveBatchResult cp i t now)
        (r.1, ⟨i, some t, false⟩ :: r.2.1, r.2.2 + 1)
      | .err _ =>
        let r := runBatches call now rest cp
        (r.1, ⟨i, none, false⟩ :: r.2.1, r.2.2 + 1)

/-- The aggregation loop of the orchestrator: iterate batch indices
`0..n-1` and keep each checkpointed raw text that is truthy (defined and
non-empty). -/
def collectResults (cp : CheckpointData) (n : Nat) : List Str :=
  (List.range n).filterMap fun i =>
    match lookupResult cp.results i with
    | some t => if t.isEmpty then none else some t
    | none => none

/-- An input row of `explainStanceLabels`: a text with its human label. -/
structure InputRow where
  text : Str
  label : Str
deriving DecidableEq, Repr

/-- What one run of the orchestrator produces: the number of external
calls issued, the final checkpoint record, the aggregated raw responses,
the parsed explanations returned to the caller, and the count of failed
batches reported as a warning. -/
structure RunResult where
  calls : Nat
  checkpoint : CheckpointData
  rawResults : List Str
  explanations : List ExplRow
  failedBatches : Nat
deriving Repr

/-- `explainStanceLabels` (src/services/batch-processor.ts) as a function
of its inputs: `checkpoint0` is the record loaded from disk (if any) and
`call i a` abstracts the external `generateText` call for the prompt of
batch `i` at attempt `a` (the orchestrator only ever makes attempt 1).
It batches the rows, creates a checkpoint when none exists, skips batches
already processed, calls once per remaining batch saving successes
immediately, aggregates the checkpointed raw texts in index order and
parses them. -/
def explainStanceLabels (B : Nat) (call : Nat → Nat → CallOutcome)
    (checkpoint0 : Option CheckpointData) (dataRows : List InputRow)
    (target language modelType now : Str) : RunResult :=
  let batches := makeBatches B dataRows
  let cp1 := effectiveCheckpoint checkpoint0 target language "explain".data
    batches.length modelType now
  let r := runBatches call now (List.range batches.length) cp1
  let allResults := collectResults r.1 batches.length
  let failed := (r.2.1.filter fun o => !o.skipped && o.result.isNone).length
  ⟨r.2.2, r.1, allResults, allResults.flatMap parseExplanationOutput, failed⟩

/-- The checkpoint invariant stated by the specification:
`processedBatches` is a subset of `0..totalBatches-1` and every processed
index has an entry in `results`. -/
def checkpointInv (cp : CheckpointData) : Prop :=
  (∀ i ∈ cp.processedBatches, i < cp.totalBatches) ∧
    ∀ i ∈ cp.processedBatches, (lookupResult cp.results i).isSome = true

instance (cp : CheckpointData) : Decidable (checkpointInv cp) := by
  unfold checkpointInv; infer_instance

/-- A data row read back from a processed spreadsheet by
`readProcessedFile` (src/compare.ts): trimmed text, lower-cased trimmed
labels, optional explanations. -/
structure DataRow where
  text : Str
  humanLabel : Str
  humanExplanation : Option Str
  llmLabel : Str
  llmExplanation : Option Str
deriving DecidableEq, Repr

/-- A value of the `dataMap` built by `compareModels` (src/compare.ts). -/
structure CompareEntry where
  humanLabel : Str
  model1Label : Option Str
  model1Explanation : Option Str
  model2Label : Option Str
  model2Explanation : Option Str
deriving DecidableEq, Repr

/-- One recorded disagreement of `compareModels`. -/
structure Disagreement where
  text : Str
  humanLabel : Str
  model1Label : Str
  model2Label : Str
  model1Explanation : Option Str
  model2Explanation : Option Str
deriving DecidableEq, Repr

/-- The in-place mutation performed by the second pass of `compareModels`
on an entry found for a model-2 row. -/
def mergeModel2 (e : CompareEntry) (r : DataRow) : CompareEntry :=
  { e with model2Label := some r.llmLabel, model2Explanation := r.llmExplanation }

/-- One iteration of the agreement-counting loop of `compareModels`: a
map entry counts when both labels are present and truthy; equal labels
are agreements, different ones are pushed onto the disagreement list. -/
def compareStep (acc : Nat × List Disagreement) (p : Str × CompareEntry) :
    Nat × List Disagreement :=
  match p.2.model1Label, p.2.model2Label with
  | some l1, some l2 =>
    if !l1.isEmpty && !l2.isEmpty then
      if l1 = l2 then (acc.1 + 1, acc.2)
      else (acc.1, acc.2 ++
        [⟨p.1, p.2.humanLabel, l1, l2, p.2.model1Explanation, p.2.model2Explanation⟩])
    else acc
  | _, _ => acc

/-- The agreement-counting loop of `compareModels`. -/
def compareCount (m : List (Str × CompareEntry)) : Nat × List Disagreement :=
  m.foldl compareStep (0, [])

/-- The pure core of `compareModels` (src/compare.ts): build `dataMap`
from the first result set keyed by text, merge the second set into
existing entries only, count agreements over the whole map, and return
`agreements / dataMap.size * 100` together with the first ten
disagreements. -/
def compareModels (model1Data model2Data : List DataRow) :
    ℚ × List Disagreement :=
  let dataMap := model1Data.foldl
    (fun m it =>
      jsSet m it.text ⟨it.humanLabel, some it.llmLabel, it.llmExplanation, none, none⟩)
    []
  let dataMap2 := model2Data.foldl
    (fun m it => m.map fun p => if p.1 = it.text then (p.1, mergeModel2 p.2 it) else p)
    dataMap
  let acc := compareCount dataMap2
  ((acc.1 : ℚ) / (dataMap2.length : ℚ) * 100, acc.2.take 10)

/-- Per-label statistics of `calculateAccuracy` (src/compare.ts).  The
source field `recall` is spelled `recallScore` because `recall` is a
keyword in this development environment. -/
structure LabelStat where
  total : Nat
  correct : Nat
  accuracy : ℚ
  precision : ℚ
  recallScore : ℚ
  f1Score : ℚ
deriving DecidableEq, Repr

/-- The state of the first loop of `calculateAccuracy`: the running
correct count, the per-label total/correct pairs, and the confusion
matrix (actual label to predicted label to count). -/
structure Tally where
  totalCorrect : Nat
  stats : List (Str × Nat × Nat)
  matrix : List (Str × List (Str × Nat))
deriving Repr

/-- Numeric lookup with the JavaScript default of a missing key. -/
def lookup0 (m : List (Str × Nat)) (k : Str) : Nat :=
  (jsLookup m k).getD 0

/-- The total/correct pair of a label, zero-initialised when absent. -/
def statPair (m : List (Str × Nat × Nat)) (k : Str) : Nat × Nat :=
  (jsLookup m k).getD (0, 0)

/-- The confusion-matrix row of an actual label, empty when absent. -/
def innerRow (mx : List (Str × List (Str × Nat))) (a : Str) : List (Str × Nat) :=
  (jsLookup mx a).getD []

/-- Increment `confusionMatrix[a][p]`, creating the row and the cell as
the source does. -/
def matrixBump (mx : List (Str × List (Str × Nat))) (a p : Str) :
    List (Str × List (Str × Nat)) :=
  jsSet mx a (jsSet (innerRow mx a) p (lookup0 (innerRow mx a) p + 1))

/-- One iteration of the confusion-matrix-building loop of
`calculateAccuracy`: bump the actual-label total, bump the matrix cell,
and on a correct prediction bump both correct counters. -/
def tallyStep (t : Tally) (r : DataRow) : Tally :=
  let stats1 := jsSet t.stats r.humanLabel
    ((statPair t.stats r.humanLabel).1 + 1, (statPair t.stats r.humanLabel).2)
  let matrix1 := matrixBump t.matrix r.humanLabel r.llmLabel
  if r.humanLabel = r.llmLabel then
    ⟨t.totalCorrect + 1,
      jsSet stats1 r.humanLabel
        ((statPair stats1 r.humanLabel).1, (statPair stats1 r.humanLabel).2 + 1),
      matrix1⟩
  else ⟨t.totalCorrect, stats1, matrix1⟩

/-- The whole first loop of `calculateAccuracy`. -/
def tallyOf (data : List DataRow) : Tally :=
  data.foldl tallyStep ⟨0, [], []⟩

/-- The false-positive loop of `calculateAccuracy`: sum, over the actual
labels of the confusion matrix other than `label`, the truthy counts
predicted as `label`. -/
def fpSum : List (Str × List (Str × Nat)) → Str → Nat
  | [], _ => 0
  | p :: rest, label =>
    (if p.1 ≠ label ∧ lookup0 p.2 label ≠ 0 then lookup0 p.2 label else 0) +
      fpSum rest label

/-- Insertion-ordered de-duplication, as performed by the JavaScript
`Set` constructor over a concatenation. -/
def dedupKeys (l : List Str) : List Str :=
  l.foldl (fun acc k => if k ∈ acc then acc else acc ++ [k]) []

/-- The label set `allLabels` of `calculateAccuracy`: the actual labels
in first-appearance order followed by the new predicted labels. -/
def allLabelsOf (data : List DataRow) : List Str :=
  dedupKeys ((tallyOf data).stats.map (·.1) ++ data.map (·.llmLabel))

/-- The per-label metric computation of `calculateAccuracy`. -/
def computeLabelStat (t : Tally) (l : Str) : LabelStat :=
  let sp := statPair t.stats l
  let tp : Nat := sp.2
  let fp : Nat := fpSum t.matrix l
  let precision : ℚ := if tp + fp > 0 then (tp : ℚ) / ((tp : ℚ) + (fp : ℚ)) else 0
  let rcl : ℚ := if sp.1 > 0 then (tp : ℚ) / (sp.1 : ℚ) else 0
  let f1 : ℚ :=
    if precision + rcl > 0 then 2 * (precision * rcl) / (precision + rcl) else 0
  let acc : ℚ := if sp.1 > 0 then ((sp.2 : ℚ) / (sp.1 : ℚ)) * 100 else 0
  ⟨sp.1, sp.2, acc, precision, rcl, f1⟩

/-- The output of `calculateAccuracy` (src/compare.ts). -/
structure AccuracyStats where
  totalSamples : Nat
  correctPredictions : Nat
  accuracy : ℚ
  f1Score : ℚ
  labelStats : List (Str × LabelStat)
  confusionMatrix : List (Str × List (Str × Nat))
deriving Repr

/-- `calculateAccuracy` (src/compare.ts): build the confusion matrix and
per-label counts, compute per-label precision, recall and F1 over the
union of actual and predicted labels, the mean of the per-label F1
scores, and the overall accuracy percentage. -/
def calculateAccuracy (data : List DataRow) : AccuracyStats :=
  let t := tallyOf data
  let labelStats := (allLabelsOf data).map fun l => (l, computeLabelStat t l)
  let f1Scores := labelStats.map fun p => p.2.f1Score
  let meanF1 : ℚ :=
    if f1Scores.length > 0 then f1Scores.foldl (· + ·) 0 / (f1Scores.length : ℚ) else 0
  let overallAccuracy : ℚ :=
    if data.length > 0 then ((t.totalCorrect : ℚ) / (data.length : ℚ)) * 100 else 0
  ⟨data.length, t.totalCorrect, overallAccuracy, meanF1, labelStats, t.matrix⟩

/-- A spreadsheet row: a map from 1-indexed column numbers to cell
values; absent cells read as undefined. -/
abbrev SheetRow := Nat → Option Str

/-- Write one cell of a row. -/
def setCell (r : SheetRow) (c : Nat) (v : Str) : SheetRow :=
  fun c2 => if c2 = c then some v else r c2

/-- `row.getCell(c).value?.toString()?.trim() || ""`. -/
def cellTrimmed (r : SheetRow) (c : Nat) : Str :=
  trimChars ((r c).getD [])

/-- `updateExcelWithExplanations` (src/services/excel.ts) on the first
worksheet, embedded as a list of rows with row 1 the header: build the
text-to-explanation map with trimmed keys, write the column-7 header,
and for each body row whose trimmed column-1 text has a truthy mapped
explanation write it into column 7. -/
def updateExcelWithExplanations (ws : List SheetRow)
    (explanations : List ExplRow) : List SheetRow :=
  let explanationMap := explanations.foldl
    (fun m it => jsSet m (trimChars it.text) it.explanation) []
  match ws with
  | [] => []
  | headerRow :: body =>
    setCell headerRow 7 "human_label_explanation".data ::
      body.map fun r =>
        match jsLookup explanationMap (cellTrimmed r 1) with
        | some e => if e.isEmpty then r else setCell r 7 e
        | none => r

/-- `updateExcelWithClassifications` (src/services/excel.ts): same shape
as the explanation update but writing the label into column 8 and the
explanation into column 9 whenever the trimmed column-1 text has a
classification. -/
def updateExcelWithClassifications (ws : List SheetRow)
    (classifications : List ParsedRow) : List SheetRow :=
  let classificationMap := classifications.foldl
    (fun m it => jsSet m (trimChars it.text) (it.label, it.explanation)) []
  match ws with
  | [] => []
  | headerRow :: body =>
    setCell (setCell headerRow 8 "llm_label".data) 9 "llm_label_explanation".data ::
      body.map fun r =>
        match jsLookup classificationMap (cellTrimmed r 1) with
        | some c => setCell (setCell r 8 c.1) 9 c.2
        | none => r

/-- A JSON value, the possible result of `JSON.parse`. -/
inductive Json where
  | null
  | bool (b : Bool)
  | num (n : Int)
  | str (s : Str)
  | arr (items : List Json)
  | obj (fields : List (Str × Json))

/-- `loadCheckpoint` (src/services/checkpoint.ts): `file` is the content
of the checkpoint file when it exists and `parseJson` abstracts
`JSON.parse`, returning `none` when parsing throws.  A missing file or a
parse failure yields `none`; any successfully parsed value is returned
as the checkpoint record — the `as CheckpointData` cast performs no
shape check. -/
def loadCheckpoint (file : Option Str) (parseJson : Str → Option Json) :
    Option Json :=
  match file with
  | none => none
  | some data =>
    match parseJson data with
    | some j => some j
    | none => none

/-- Decode a string field of a JSON object. -/
def jsonStrField (fields : List (Str × Json)) (k : Str) : Option Str :=
  match jsLookup fields k with
  | some (.str s) => some s
  | _ => none

/-- Modelled from the spec: the shape check that section 3 of the
specification attributes to checkpoint loading ("loaded and validated
(shape-checked) on subsequent runs"), which has no counterpart in the
source.  A value has the checkpoint-record shape exactly when it is an
object with integer batch indices in `processedBatches`, string raw
results keyed by batch index in `results`, string metadata fields, an
action of `explain` or `classify`, and an integer `totalBatches`. -/
def decodeCheckpoint (j : Json) : Option CheckpointData :=
  match j with
  | .obj fields =>
    match jsLookup fields "processedBatches".data,
        jsLookup fields "results".data,
        jsonStrField fields "target".data,
        jsonStrField fields "language".data,
        jsonStrField fields "action".data,
        jsLookup fields "totalBatches".data,
        jsonStrField fields "modelType".data,
        jsonStrField fields "lastUpdated".data with
    | some (.arr pbs), some (.obj rs), some target, some language,
        some action, some (.num (Int.ofNat total)), some modelType,
        some lastUpdated =>
      if action = "explain".data ∨ action = "classify".data then
        match pbs.mapM (fun v => match v with
            | Json.num (Int.ofNat i) => some i
            | _ => none),
          rs.mapM (fun p => match p.2 with
            | Json.str s => (String.mk p.1).toNat?.map fun i => (i, s)
            | _ => none) with
        | some processed, some results =>
          some ⟨processed, results, target, language, action, total,
            modelType, lastUpdated⟩
        | _, _ => none
      else none
    | _, _, _, _, _, _, _, _ => none
  | _ => none

/-! ### The batch splitter (claim C2) -/

lemma makeBatchesGo_zero (rows : List α) :
    ∀ cur lineCount, makeBatchesGo 0 rows cur lineCount = [cur.reverse ++ rows] := by
  induction rows with
  | nil => intro cur lineCount; simp [makeBatchesGo]
  | cons r rest ih =>
    intro cur lineCount
    simp only [makeBatchesGo, Nat.succ_ne_zero, beq_iff_eq, if_false]
    rw [ih]
    simp

lemma makeBatchesGo_eq (B : Nat) (hB : 1 ≤ B) :
    ∀ (rows cur : List α), cur.length < B →
      makeBatchesGo B rows cur cur.length =
        if rows.length < B - cur.length then [cur.reverse ++ rows]
        else (cur.reverse ++ rows.take (B - cur.length)) ::
          makeBatchesGo B (rows.drop (B - cur.length)) [] 0 := by
  intro rows
  induction rows with
  | nil =>
    intro cur h
    have : (0 : Nat) < B - cur.length := by omega
    simp [makeBatchesGo, this]
  | cons r rest ih =>
    intro cur h
    by_cases hc : cur.length + 1 = B
    · simp only [makeBatchesGo, hc, beq_self_eq_true, if_true]
      have h1 : B - cur.length = 1 := by omega
      have h2 : ¬ (r :: rest).length < B - cur.length := by simp [h1]
      rw [if_neg h2]
      simp [h1]
    · have hlt : cur.length + 1 < B := by omega
      have hstep : makeBatchesGo B (r :: rest) cur cur.length =
          makeBatchesGo B rest (r :: cur) (r :: cur).length := by
        simp only [makeBatchesGo, beq_iff_eq, hc, if_false, List.length_cons]
      rw [hstep, ih (r :: cur) (by simpa using hlt)]
      obtain ⟨k, hk⟩ : ∃ k, B - cur.length = k + 1 := ⟨B - cur.length - 1, by omega⟩
      have hk2 : B - (r :: cur).length = k := by simp; omega
      rw [hk2, hk]
      have hcond : rest.length < k ↔ (r :: rest).length < k + 1 := by simp
      by_cases hr : rest.length < k
      · rw [if_pos hr, if_pos (by simpa using hr)]
        simp
      · rw [if_neg hr, if_neg (by simpa using hr)]
        simp [List.take_succ_cons, List.drop_succ_cons]

lemma makeBatches_recurrence (B : Nat) (hB : 1 ≤ B) (rows : List α) :
    makeBatches B rows =
      if rows.length < B then [rows]
      else rows.take B :: makeBatches B (rows.drop B) := by
  have h := makeBatchesGo_eq B hB rows [] (by simpa using hB)
  simpa [makeBatches] using h

lemma makeBatches_length_aux (B : Nat) (hB : 1 ≤ B) :
    ∀ n (rows : List α), rows.length ≤ n →
      (makeBatches B rows).length = rows.length / B + 1 := by
  intro n
  induction n with
  | zero =>
    intro rows h
    have : rows = [] := List.eq_nil_of_length_eq_zero (by omega)
    subst this
    simp [makeBatches, makeBatchesGo]
  | succ n ih =>
    intro rows h
    rw [makeBatches_recurrence B hB]
    by_cases hlt : rows.length < B
    · rw [if_pos hlt]
      simp [Nat.div_eq_of_lt hlt]
    · rw [if_neg hlt]
      have hle : B ≤ rows.length := by omega
      have hdrop : (rows.drop B).length = rows.length - B := by simp
      have := ih (rows.drop B) (by omega)
      rw [List.length_cons, this, hdrop]
      rw [Nat.div_eq_sub_div (by omega) hle]

lemma makeBatches_get_aux (B : Nat) (hB : 1 ≤ B) :
    ∀ n (rows : List α), rows.length ≤ n →
      ∀ i, i < (makeBatches B rows).length →
        (makeBatches B rows)[i]? = some ((rows.drop (i * B)).take B) := by
  intro n
  induction n with
  | zero =>
    intro rows h i hi
    have : rows = [] := List.eq_nil_of_length_eq_zero (by omega)
    subst this
    have hi0 : i = 0 := by
      simp [makeBatches, makeBatchesGo] at hi
      omega
    subst hi0
    simp [makeBatches, makeBatchesGo]
  | succ n ih =>
    intro rows h i hi
    rw [makeBatches_recurrence B hB] at hi ⊢
    by_cases hlt : rows.length < B
    · rw [if_pos hlt] at hi ⊢
      have : i = 0 := by simpa using hi
      subst this
      simp [List.take_of_length_le (le_of_lt hlt)]
    · rw [if_neg hlt] at hi ⊢
      match i with
      | 0 => simp
      | j + 1 =>
        have hle : B ≤ rows.length := by omega
        have hj : j < (makeBatches B (rows.drop B)).length := by
          simpa using hi
        rw [List.getElem?_cons_succ, ih (rows.drop B) (by simp; omega) j hj]
        rw [List.drop_drop]
        congr 2
        ring

/-- Claim C2 (amended): the splitter produces `N / B + 1` batches — that
is `ceil(N / B)` when `B` does not divide `N`, and one more than the
claimed `ceil(N / B)` when it does, the extra batch being a trailing
empty one (including `N = 0`, which yields one empty batch) — and for
`B ≥ 1` batch `i` contains exactly the rows in positions
`[i*B, min((i+1)*B, N))` of the input, every non-final batch having
exactly `B` rows.  Both `explainStanceLabels` and
`classifyAndExplainStance` build batches this way. -/
theorem makeBatches_spec (B : Nat) (rows : List α) :
    (makeBatches B rows).length = rows.length / B + 1 ∧
    (1 ≤ B → ∀ i, i < (makeBatches B rows).length →
      (makeBatches B rows)[i]? = some ((rows.drop (i * B)).take B)) ∧
    (1 ≤ B → ∀ i, i + 1 < (makeBatches B rows).length →
      ∀ b, (makeBatches B rows)[i]? = some b → b.length = B) := by
  refine ⟨?_, ?_, ?_⟩
  · match B with
    | 0 => simp [makeBatches, makeBatchesGo_zero]
    | Bp + 1 => exact makeBatches_length_aux (Bp + 1) (by omega) rows.length rows le_rfl
  · intro hB i hi
    exact makeBatches_get_aux B hB rows.length rows le_rfl i hi
  · intro hB i hi b hb
    have hlen : (makeBatches B rows).length = rows.length / B + 1 := by
      match B, hB with
      | Bp + 1, _ => exact makeBatches_length_aux (Bp + 1) (by omega) rows.length rows le_rfl
    have hget := makeBatches_get_aux B hB rows.length rows le_rfl i (by omega)
    rw [hget] at hb
    have hb' : (rows.drop (i * B)).take B = b := by injection hb
    subst hb'
    have hiub : (i + 1) * B ≤ rows.length := by
      have h1 : i + 1 ≤ rows.length / B := by omega
      have h2 : (i + 1) * B ≤ rows.length / B * B := Nat.mul_le_mul h1 (le_refl B)
      have h3 : rows.length / B * B ≤ rows.length := Nat.div_mul_le_self _ _
      omega
    rw [Nat.add_mul, one_mul] at hiub
    simp only [List.length_take, List.length_drop]
    omega

/-- Claim C2 counterexample: with `B = 1` and a single input row the
splitter produces two batches (the second empty), not
`ceil(1 / 1) = 1` as the claim states. -/
theorem makeBatches_ceil_counterexample :
    (makeBatches 1 [(0 : Nat)]).length = 2 ∧ (1 + 1 - 1) / 1 = 1 ∧
    (makeBatches 1 [(0 : Nat)]).length ≠ (1 + 1 - 1) / 1 := by decide

/-- Witness for `makeBatches_spec` at `B = 2` and three rows. -/
theorem makeBatches_spec_witness :
    (1 ≤ 2 ∧ 1 < (makeBatches 2 [10, 20, 30]).length) ∧
    (makeBatches 2 [10, 20, 30])[1]? =
      some (([10, 20, 30].drop (1 * 2)).take 2) :=
  ⟨⟨by decide, by decide⟩,
    (makeBatches_spec 2 [10, 20, 30]).2.1 (by decide) 1 (by decide)⟩

/-! ### The retryable call wrapper (claim C5) -/

lemma processBatchGo_allRetryable (call : Nat → CallOutcome) (m : Nat)
    (hcall : ∀ a, call a = .err true) :
    ∀ fuel a s, 1 ≤ a → a + fuel = m + 1 →
      processBatchGo call m a s fuel =
        (none, m, s + RETRY_DELAY_MS * ∑ k in Finset.Ico a m, k) := by
  intro fuel
  induction fuel with
  | zero =>
    intro a s h1 h2
    have ha : a = m + 1 := by omega
    subst ha
    simp [processBatchGo,
      show Finset.Ico (m + 1) m = ∅ from Finset.Ico_eq_empty (by omega)]
  | succ fuel ih =>
    intro a s h1 h2
    by_cases hlt : a < m
    · have hred : processBatchGo call m a s (fuel + 1) =
          processBatchGo call m (a + 1) (s + RETRY_DELAY_MS * a) fuel := by
        simp [processBatchGo, hcall a, hlt]
      rw [hred, ih (a + 1) (s + RETRY_DELAY_MS * a) (by omega) (by omega)]
      have hsum : ∑ k in Finset.Ico a m, k = a + ∑ k in Finset.Ico (a + 1) m, k :=
        Finset.sum_eq_sum_Ico_succ_bot hlt _
      rw [hsum, Nat.mul_add]
      simp [Nat.add_assoc]
    · have ha : a = m := by omega
      subst ha
      have hred : processBatchGo call a a s (fuel + 1) = (none, a, s) := by
        simp [processBatchGo, hcall a]
      rw [hred]
      simp

/-- Claim C5: for every `maxAttempts ≥ 1`, a call whose every attempt
raises a retryable error makes exactly `maxAttempts` attempts, returns
null (never throwing), and sleeps
`RETRY_DELAY_MS * (0 + 1 + ... + (maxAttempts - 1))` in total, the sleep
after attempt `k` being `RETRY_DELAY_MS * k` with `RETRY_DELAY_MS =
2000` milliseconds. -/
theorem processBatchWithRetry_exhaustion (call : Nat → CallOutcome)
    (m : Nat) (hm : 1 ≤ m) (hcall : ∀ a, call a = .err true) :
    processBatchWithRetry call m =
      (none, m, RETRY_DELAY_MS * ∑ k in Finset.range m, k) ∧
    RETRY_DELAY_MS = 2000 := by
  constructor
  · rw [processBatchWithRetry,
      processBatchGo_allRetryable call m hcall m 1 0 le_rfl (by omega)]
    rw [Finset.range_eq_Ico, Finset.sum_eq_sum_Ico_succ_bot hm]
    simp
  · rfl

/-- Witness for `processBatchWithRetry_exhaustion`: three attempts with a
retryable error every time return null after exactly three attempts and
2000 + 4000 milliseconds of sleep. -/
theorem processBatchWithRetry_exhaustion_witness :
    processBatchWithRetry (fun _ => CallOutcome.err true) 3 =
      (none, 3, RETRY_DELAY_MS * ∑ k in Finset.range 3, k) :=
  (processBatchWithRetry_exhaustion (fun _ => CallOutcome.err true) 3
    (by omega) (fun _ => rfl)).1

/-! ### One attempt per batch in the orchestrator (claim C4) -/

lemma runBatches_calls (call : Nat → Nat → CallOutcome) (now : Str) :
    ∀ (idxs : List Nat) (cp : CheckpointData), idxs.Nodup →
      (runBatches call now idxs cp).2.2 =
        (idxs.filter fun i => decide (i ∉ cp.processedBatches)).length := by
  intro idxs
  induction idxs with
  | nil => intro cp _; simp [runBatches]
  | cons i rest ih =>
    intro cp hnd
    have hnd' : rest.Nodup := (List.nodup_cons.mp hnd).2
    have hni : i ∉ rest := (List.nodup_cons.mp hnd).1
    by_cases hmem : i ∈ cp.processedBatches
    · simp only [runBatches, if_pos hmem]
      rw [ih cp hnd']
      simp [hmem]
    · have hfilter : ∀ cp' : CheckpointData,
          cp'.processedBatches = cp.processedBatches ++ [i] →
          (rest.filter fun j => decide (j ∉ cp'.processedBatches)) =
            (rest.filter fun j => decide (j ∉ cp.processedBatches)) := by
        intro cp' hcp'
        apply List.filter_congr
        intro j hj
        have : j ≠ i := fun h => hni (h ▸ hj)
        simp [hcp', this]
      simp only [runBatches, if_neg hmem]
      match hc : call i 1 with
      | .ok t =>
        simp only []
        rw [ih (saveBatchResult cp i t now) hnd']
        rw [hfilter (saveBatchResult cp i t now) rfl]
        simp [hmem]
      | .err b =>
        simp only []
        rw [ih cp hnd']
        simp [hmem]

/-- Claim C4 (amended): the orchestrator does not route batch calls
through `processBatchWithRetry` — for every batch whose index is not in
`processedBatches` it invokes the external call directly, exactly once
per run, so the total number of external calls equals the number of
non-skipped batches whatever the call outcomes; a transient error is not
retried within the run (the batch simply fails and is retried by a
future run via the checkpoint). -/
theorem explainStanceLabels_single_attempt (B : Nat)
    (call : Nat → Nat → CallOutcome) (checkpoint0 : Option CheckpointData)
    (dataRows : List InputRow) (target language modelType now : Str) :
    (explainStanceLabels B call checkpoint0 dataRows target language
        modelType now).calls =
      ((List.range (makeBatches B dataRows).length).filter fun i =>
        decide (i ∉ (effectiveCheckpoint checkpoint0 target language
          "explain".data (makeBatches B dataRows).length modelType
          now).processedBatches)).length := by
  unfold explainStanceLabels
  exact runBatches_calls call now _ _ (List.nodup_range _)

/-- A call whose every attempt, for every batch, raises a retryable
(transient) error. -/
def callTransient : Nat → Nat → CallOutcome := fun _ _ => .err true

/-- Claim C4 counterexample: on a run with one unprocessed batch whose
external call keeps raising a transient error, the orchestrator makes
exactly one call and marks the batch failed — not the `MAX_RETRIES = 3`
attempts the claim requires of the retryable-call wrapper, which
`processBatchWithRetry` would have made on the same outcomes. -/
theorem explainStanceLabels_no_retry_counterexample :
    (explainStanceLabels BATCH_SIZE callTransient none [] [] [] [] []).calls = 1 ∧
    (explainStanceLabels BATCH_SIZE callTransient none [] [] [] [] []).failedBatches = 1 ∧
    MAX_RETRIES = 3 ∧
    (processBatchWithRetry (fun a => callTransient 0 a) MAX_RETRIES).2.1 = 3 ∧
    (explainStanceLabels BATCH_SIZE callTransient none [] [] [] [] []).calls ≠
      MAX_RETRIES := by
  refine ⟨?_, ?_, rfl, rfl, ?_⟩ <;> decide

/-! ### Checkpoint loading (claim C9) -/

/-- Claim C9 (amended): `loadCheckpoint` never throws — it returns null
exactly when the backing file does not exist or its content fails to
parse; but a successfully parsed value is returned as the checkpoint
record without any shape validation (the `as CheckpointData` cast checks
nothing), so parseable content of the wrong shape is returned rather
than treated as no checkpoint. -/
theorem loadCheckpoint_spec (file : Option Str)
    (parseJson : Str → Option Json) :
    (file = none → loadCheckpoint file parseJson = none) ∧
    (∀ s, file = some s → parseJson s = none →
      loadCheckpoint file parseJson = none) ∧
    (∀ s j, file = some s → parseJson s = some j →
      loadCheckpoint file parseJson = some j) := by
  refine ⟨?_, ?_, ?_⟩
  · intro h; rw [h]; rfl
  · intro s hs hp; rw [hs]; simp [loadCheckpoint, hp]
  · intro s j hs hp; rw [hs]; simp [loadCheckpoint, hp]

/-- Witness for `loadCheckpoint_spec`: a file whose content fails to
parse loads as no checkpoint. -/
theorem loadCheckpoint_spec_witness :
    loadCheckpoint (some "x".data) (fun _ => none) = none :=
  (loadCheckpoint_spec (some "x".data) (fun _ => none)).2.1 "x".data rfl rfl

/-- The result of `JSON.parse` on the file content `42`: a number, which
is valid JSON but does not have the checkpoint record shape. -/
def parseAsNum42 : Str → Option Json := fun _ => some (Json.num 42)

/-- Claim C9 counterexample: a checkpoint file whose content parses to
the JSON number `42` — parseable content without the checkpoint record
shape — is returned by `loadCheckpoint` as if it were a record, instead
of being treated as no checkpoint; no shape check
(`decodeCheckpoint`, modelled from the spec) is applied. -/
theorem loadCheckpoint_no_validation_counterexample :
    loadCheckpoint (some "42".data) parseAsNum42 = some (Json.num 42) ∧
    decodeCheckpoint (Json.num 42) = none :=
  ⟨rfl, rfl⟩

/-! ### Idempotent resume (claim C3) -/

/-- Claim C3: given a three-batch input and an existing checkpoint with
batches 0 and 1 recorded as processed (with their stored raw texts),
re-running the orchestrator issues exactly one external call — the one
for batch 2 — and, provided the external call would produce for each
batch the same text the stored checkpoint holds, the final parsed output
equals that of a from-scratch run in which all three batches succeed. -/
theorem explainStanceLabels_resume (B : Nat) (rows : List InputRow)
    (call : Nat → Nat → CallOutcome) (t0 t1 t2 : Str)
    (tg lg mt ts now : Str)
    (hlen : (makeBatches B rows).length = 3)
    (h0 : call 0 1 = .ok t0) (h1 : call 1 1 = .ok t1) (h2 : call 2 1 = .ok t2) :
    (explainStanceLabels B call
        (some ⟨[0, 1], [(0, t0), (1, t1)], tg, lg, "explain".data, 3, mt, ts⟩)
        rows tg lg mt now).calls = 1 ∧
    (explainStanceLabels B call
        (some ⟨[0, 1], [(0, t0), (1, t1)], tg, lg, "explain".data, 3, mt, ts⟩)
        rows tg lg mt now).explanations =
      (explainStanceLabels B call none rows tg lg mt now).explanations := by
  have hr : List.range 3 = [0, 1, 2] := rfl
  constructor
  · simp [explainStanceLabels, effectiveCheckpoint, hlen, hr, runBatches,
      saveBatchResult, h0, h1, h2]
  · simp [explainStanceLabels, effectiveCheckpoint, initialCheckpoint, hlen, hr,
      runBatches, saveBatchResult, collectResults, lookupResult, h0, h1, h2,
      List.find?, List.filterMap_cons]

/-- Five input rows, three batches at batch size 2. -/
def resumeRows : List InputRow :=
  [⟨"r1".data, "for".data⟩, ⟨"r2".data, "for".data⟩, ⟨"r3".data, "against".data⟩,
    ⟨"r4".data, "for".data⟩, ⟨"r5".data, "against".data⟩]

/-- A deterministic external call producing one TSV line per batch. -/
def resumeCall : Nat → Nat → CallOutcome := fun i _ =>
  match i with
  | 0 => .ok "x\ty\tz0".data
  | 1 => .ok "x\ty\tz1".data
  | _ => .ok "x\ty\tz2".data

/-- Witness for `explainStanceLabels_resume`: batch size 2 with five
rows gives three batches; resuming from a checkpoint holding batches 0
and 1 issues one call and reproduces the from-scratch output. -/
theorem explainStanceLabels_resume_witness :
    ((makeBatches 2 resumeRows).length = 3 ∧
      resumeCall 0 1 = .ok "x\ty\tz0".data ∧
      resumeCall 1 1 = .ok "x\ty\tz1".data ∧
      resumeCall 2 1 = .ok "x\ty\tz2".data) ∧
    ((explainStanceLabels 2 resumeCall
        (some ⟨[0, 1], [(0, "x\ty\tz0".data), (1, "x\ty\tz1".data)], [], [],
          "explain".data, 3, [], []⟩)
        resumeRows [] [] [] []).calls = 1 ∧
      (explainStanceLabels 2 resumeCall
        (some ⟨[0, 1], [(0, "x\ty\tz0".data), (1, "x\ty\tz1".data)], [], [],
          "explain".data, 3, [], []⟩)
        resumeRows [] [] [] []).explanations =
        (explainStanceLabels 2 resumeCall none resumeRows [] [] [] []).explanations) :=
  ⟨⟨by decide, rfl, rfl, rfl⟩,
    explainStanceLabels_resume 2 resumeRows resumeCall
      "x\ty\tz0".data "x\ty\tz1".data "x\ty\tz2".data [] [] [] [] []
      (by decide) rfl rfl rfl⟩

/-! ### The checkpoint invariant (claim C8) -/

lemma lookupResult_cons (i j : Nat) (t : Str) (rs : List (Nat × Str)) :
    lookupResult ((i, t) :: rs) j = if i = j then some t else lookupResult rs j := by
  by_cases h : i = j <;> simp [lookupResult, List.find?, h]

lemma saveBatchResult_inv (cp : CheckpointData) (i : Nat) (t now : Str)
    (hinv : checkpointInv cp) (hi : i < cp.totalBatches) :
    checkpointInv (saveBatchResult cp i t now) := by
  obtain ⟨h1, h2⟩ := hinv
  constructor
  · intro j hj
    simp only [saveBatchResult, List.mem_append, List.mem_singleton] at hj ⊢
    rcases hj with hj | rfl
    · exact h1 j hj
    · exact hi
  · intro j hj
    simp only [saveBatchResult] at hj ⊢
    rw [lookupResult_cons]
    by_cases hij : i = j
    · simp [hij]
    · simp only [if_neg hij]
      simp only [List.mem_append, List.mem_singleton] at hj
      rcases hj with hj | rfl
      · exact h2 j hj
      · exact absurd rfl hij

lemma runBatches_totalBatches (call : Nat → Nat → CallOutcome) (now : Str) :
    ∀ (idxs : List Nat) (cp : CheckpointData),
      (runBatches call now idxs cp).1.totalBatches = cp.totalBatches := by
  intro idxs
  induction idxs with
  | nil => intro cp; rfl
  | cons i rest ih =>
    intro cp
    by_cases hmem : i ∈ cp.processedBatches
    · simp only [runBatches, if_pos hmem]; exact ih cp
    · simp only [runBatches, if_neg hmem]
      match call i 1 with
      | .ok t => exact ih (saveBatchResult cp i t now)
      | .err b => exact ih cp

lemma runBatches_inv (call : Nat → Nat → CallOutcome) (now : Str) :
    ∀ (idxs : List Nat) (cp : CheckpointData), checkpointInv cp →
      (∀ i ∈ idxs, i < cp.totalBatches) →
      checkpointInv (runBatches call now idxs cp).1 := by
  intro idxs
  induction idxs with
  | nil => intro cp hinv _; exact hinv
  | cons i rest ih =>
    intro cp hinv hlt
    by_cases hmem : i ∈ cp.processedBatches
    · simp only [runBatches, if_pos hmem]
      exact ih cp hinv fun j hj => hlt j (List.mem_cons_of_mem i hj)
    · simp only [runBatches, if_neg hmem]
      match call i 1 with
      | .ok t =>
        refine ih (saveBatchResult cp i t now) ?_ ?_
        · exact saveBatchResult_inv cp i t now hinv (hlt i (List.mem_cons_self i rest))
        · intro j hj
          exact hlt j (List.mem_cons_of_mem i hj)
      | .err b =>
        exact ih cp hinv fun j hj => hlt j (List.mem_cons_of_mem i hj)

lemma runBatches_append_only (call : Nat → Nat → CallOutcome) (now : Str) :
    ∀ (idxs : List Nat) (cp : CheckpointData),
      (∀ j ∈ cp.processedBatches,
        j ∈ (runBatches call now idxs cp).1.processedBatches) ∧
      (∀ j, (lookupResult cp.results j).isSome = true →
        (lookupResult (runBatches call now idxs cp).1.results j).isSome = true) := by
  intro idxs
  induction idxs with
  | nil => intro cp; exact ⟨fun j hj => hj, fun j hj => hj⟩
  | cons i rest ih =>
    intro cp
    by_cases hmem : i ∈ cp.processedBatches
    · simp only [runBatches, if_pos hmem]; exact ih cp
    · simp only [runBatches, if_neg hmem]
      match call i 1 with
      | .ok t =>
        obtain ⟨ha, hb⟩ := ih (saveBatchResult cp i t now)
        constructor
        · intro j hj
          refine ha j ?_
          simp [saveBatchResult, hj]
        · intro j hj
          refine hb j ?_
          simp only [saveBatchResult]
          rw [lookupResult_cons]
          by_cases hij : i = j
          · simp [hij]
          · simp [hij, hj]
      | .err b => exact ih cp

/-- Claim C8 (amended): record creation establishes the invariant that
`processedBatches` is a subset of `0..totalBatches-1` with every
processed index having an entry in `results`, and `saveBatchResult`
adds its index to both structures without removing anything; every run
whose computed batch count does not exceed the invariant-satisfying
loaded record's `totalBatches` — in particular every run starting from a
fresh record — only writes records satisfying the invariant.  (When a
resumed input yields more batches than the stored `totalBatches`, which
is never updated, the subset half of the invariant is violated — see the
counterexample.) -/
theorem explainStanceLabels_checkpointInv (B : Nat)
    (call : Nat → Nat → CallOutcome) (rows : List InputRow)
    (tg lg mt now : Str) (checkpoint0 : Option CheckpointData)
    (h : ∀ c, checkpoint0 = some c →
      checkpointInv c ∧ (makeBatches B rows).length ≤ c.totalBatches) :
    checkpointInv
      (explainStanceLabels B call checkpoint0 rows tg lg mt now).checkpoint ∧
    ∀ c, checkpoint0 = some c →
      (∀ j ∈ c.processedBatches,
        j ∈ (explainStanceLabels B call checkpoint0 rows tg lg mt
          now).checkpoint.processedBatches) ∧
      ∀ j, (lookupResult c.results j).isSome = true →
        (lookupResult (explainStanceLabels B call checkpoint0 rows tg lg mt
          now).checkpoint.results j).isSome = true := by
  constructor
  · show checkpointInv (runBatches call now _ _).1
    match checkpoint0, h with
    | none, _ =>
      refine runBatches_inv call now _ _ ⟨?_, ?_⟩ ?_ <;>
        simp [effectiveCheckpoint, initialCheckpoint, List.mem_range]
    | some c, h =>
      obtain ⟨hinv, hle⟩ := h c rfl
      refine runBatches_inv call now _ _ hinv ?_
      intro i hi
      simp only [effectiveCheckpoint]
      have := List.mem_range.mp hi
      omega
  · intro c hc
    subst hc
    exact runBatches_append_only call now _ _

/-- A call that always succeeds with a fixed TSV line. -/
def okCall : Nat → Nat → CallOutcome := fun _ _ => .ok "t\tl\te".data

/-- The run that creates and fills a checkpoint for an empty input at
batch size 1: one (empty) batch, so the record has `totalBatches = 1`
and batch 0 processed. -/
def overflowRun1 : RunResult := explainStanceLabels 1 okCall none [] [] [] [] []

/-- Re-running with the record of `overflowRun1` on an input that now
yields two batches. -/
def overflowRun2 : RunResult :=
  explainStanceLabels 1 okCall (some overflowRun1.checkpoint)
    [⟨"a".data, "for".data⟩] [] [] [] []

/-- Claim C8 counterexample: the system itself writes a record violating
the invariant.  A first run on an empty input (one batch) writes a
record with `totalBatches = 1`; resuming with one row at batch size 1
yields two batches, and the re-run saves batch index 1 into the same
record without updating `totalBatches`, so the written record has
`1 ∈ processedBatches` but `totalBatches = 1`. -/
theorem checkpointInv_counterexample :
    checkpointInv overflowRun1.checkpoint ∧
    overflowRun1.checkpoint.totalBatches = 1 ∧
    (makeBatches 1 [(⟨"a".data, "for".data⟩ : InputRow)]).length = 2 ∧
    ¬ checkpointInv overflowRun2.checkpoint := by
  refine ⟨?_, ?_, ?_, ?_⟩ <;> decide

/-- A loaded record satisfying the invariant with room for the three
batches of `resumeRows` at batch size 2. -/
def invWitnessCp : CheckpointData :=
  ⟨[0], [(0, "q\tw\te".data)], [], [], "explain".data, 3, [], []⟩

/-- Witness for `explainStanceLabels_checkpointInv`: resuming from
`invWitnessCp` on a three-batch input keeps the invariant. -/
theorem explainStanceLabels_checkpointInv_witness :
    checkpointInv (explainStanceLabels 2 okCall (some invWitnessCp)
      resumeRows [] [] [] []).checkpoint :=
  (explainStanceLabels_checkpointInv 2 okCall resumeRows [] [] [] []
    (some invWitnessCp)
    (fun c hc => Option.some.inj hc ▸ ⟨by decide, by decide⟩)).1


/-! ### Parser tolerance (claim C7): string lemmas -/

lemma splitOnChar_eq_self (sep : Char) (s : Str) (h : sep ∉ s) :
    splitOnChar sep s = [s] := by
  induction s with
  | nil => rfl
  | cons c rest ih =>
    have hc : ¬ c == sep := by
      simp only [List.mem_cons, not_or] at h
      simp [beq_iff_eq]
      exact fun hcs => h.1 hcs.symm
    rw [splitOnChar, if_neg hc, ih (by simp only [List.mem_cons, not_or] at h; exact h.2)]

lemma splitOnChar_append_sep (sep : Char) (l t : Str) (h : sep ∉ l) :
    splitOnChar sep (l ++ sep :: t) = l :: splitOnChar sep t := by
  induction l with
  | nil => simp [splitOnChar]
  | cons c rest ih =>
    have hc : ¬ c == sep := by
      simp only [List.mem_cons, not_or] at h
      simp [beq_iff_eq]
      exact fun hcs => h.1 hcs.symm
    rw [List.cons_append, splitOnChar, if_neg hc,
      ih (by simp only [List.mem_cons, not_or] at h; exact h.2)]

lemma unlines_cons (l l2 : Str) (ls : List Str) :
    unlines (l :: l2 :: ls) = l ++ '\n' :: unlines (l2 :: ls) := rfl

lemma unlines_append (xs : List Str) (hxs : xs ≠ []) (t : List Str) (ht : t ≠ []) :
    unlines (xs ++ t) = unlines xs ++ '\n' :: unlines t := by
  induction xs with
  | nil => exact absurd rfl hxs
  | cons x xs ih =>
    match xs with
    | [] =>
      match t with
      | t0 :: ts => simp [unlines_cons, unlines]
    | x2 :: xs' =>
      simp only [List.cons_append]
      rw [unlines_cons]
      rw [show x2 :: (xs' ++ t) = (x2 :: xs') ++ t from rfl, ih (by simp)]
      rw [unlines_cons]
      simp

lemma splitOnChar_unlines (ls : List Str) (hne : ls ≠ [])
    (h : ∀ l ∈ ls, '\n' ∉ l) :
    splitOnChar '\n' (unlines ls) = ls := by
  induction ls with
  | nil => exact absurd rfl hne
  | cons l rest ih =>
    match rest with
    | [] => exact splitOnChar_eq_self '\n' l (h l (by simp))
    | l2 :: rest' =>
      rw [unlines_cons, splitOnChar_append_sep '\n' l _ (h l (by simp))]
      rw [ih (by simp) (fun x hx => h x (List.mem_cons_of_mem l hx))]

lemma dropTrailingWs_all_ws (t : Str) (h : ∀ c ∈ t, jsWs c = true) :
    dropTrailingWs t = [] := by
  induction t with
  | nil => rfl
  | cons c rest ih =>
    rw [dropTrailingWs, ih (fun x hx => h x (List.mem_cons_of_mem c hx))]
    simp [h c (List.mem_cons_self c rest)]

lemma dropTrailingWs_append_ws (s t : Str) (h : ∀ c ∈ t, jsWs c = true) :
    dropTrailingWs (s ++ t) = dropTrailingWs s := by
  induction s with
  | nil => simpa using dropTrailingWs_all_ws t h
  | cons c rest ih =>
    rw [List.cons_append, dropTrailingWs, ih, dropTrailingWs]

lemma dropTrailingWs_eq_self (s : Str)
    (h : ∀ c, s.getLast? = some c → jsWs c = false) :
    dropTrailingWs s = s := by
  induction s with
  | nil => rfl
  | cons c rest ih =>
    match rest with
    | [] =>
      have := h c (by simp)
      simp [dropTrailingWs, this]
    | c2 :: rest' =>
      have hrec : dropTrailingWs (c2 :: rest') = c2 :: rest' :=
        ih (fun x hx => h x (by rw [List.getLast?_cons_cons]; exact hx))
      rw [dropTrailingWs, hrec]

lemma mem_unlines (ls : List Str) (x : Char) (hx : x ∈ unlines ls) :
    x = '\n' ∨ ∃ l ∈ ls, x ∈ l := by
  induction ls with
  | nil => simp [unlines] at hx
  | cons l rest ih =>
    match rest with
    | [] =>
      right
      exact ⟨l, List.mem_cons_self l [], hx⟩
    | l2 :: rest' =>
      rw [unlines_cons] at hx
      rcases List.mem_append.mp hx with hmem | hmem
      · right; exact ⟨l, List.mem_cons_self _ _, hmem⟩
      · rcases List.mem_cons.mp hmem with heq | hmem2
        · left; exact heq
        · rcases ih hmem2 with hnl | ⟨l', hl', hxl'⟩
          · left; exact hnl
          · right; exact ⟨l', List.mem_cons_of_mem l hl', hxl'⟩

lemma fenceAtEnd_no_backtick (t : Str) (h : '`' ∉ t) : fenceAtEnd t = false := by
  match t with
  | [] => rfl
  | c :: t' =>
    have hc : c ≠ '`' := fun hcc => h (hcc ▸ List.mem_cons_self c t')
    simp only [fenceAtEnd, strStarts]
    have : ¬ ('`' == c) := by simp [beq_iff_eq]; exact fun hh => hc hh.symm
    simp [this]

lemma stripClosingFence_no_backtick (s : Str) (h : '`' ∉ s) :
    stripClosingFence s = s := by
  induction s with
  | nil => rfl
  | cons c rest ih =>
    have hrest : '`' ∉ rest := fun hr => h (List.mem_cons_of_mem c hr)
    have h1 : fenceAtEnd rest = false := fenceAtEnd_no_backtick rest hrest
    have h2 : fenceAtEnd (c :: rest) = false := fenceAtEnd_no_backtick _ h
    rw [stripClosingFence, h1, h2]
    simp [ih hrest]

lemma fenceAtEnd_mid (s' : Str) (h : '`' ∉ s') :
    fenceAtEnd (s' ++ '\n' :: '\n' :: "```".data) = false := by
  match s' with
  | [] => rfl
  | c :: s'' =>
    have hc : c ≠ '`' := fun hcc => h (hcc ▸ List.mem_cons_self c s'')
    simp only [List.cons_append, fenceAtEnd, strStarts]
    have : ¬ ('`' == c) := by simp [beq_iff_eq]; exact fun hh => hc hh.symm
    simp [this]

lemma stripClosingFence_append (s : Str) (h : '`' ∉ s) :
    stripClosingFence (s ++ '\n' :: '\n' :: "```".data) = s ++ ['\n'] := by
  induction s with
  | nil => decide
  | cons c rest ih =>
    have hrest : '`' ∉ rest := fun hr => h (List.mem_cons_of_mem c hr)
    have h1 : fenceAtEnd (rest ++ '\n' :: '\n' :: "```".data) = false :=
      fenceAtEnd_mid rest hrest
    have h2 : fenceAtEnd (c :: rest ++ '\n' :: '\n' :: "```".data) = false :=
      fenceAtEnd_mid (c :: rest) h
    rw [List.cons_append, stripClosingFence, h1]
    simp only [Bool.and_false, if_false]
    simp only [List.cons_append] at h2
    rw [h2]
    simp only [Bool.false_eq_true, if_false]
    rw [ih hrest]
    simp

lemma strStarts_append (p s : Str) : strStarts p (p ++ s) = true := by
  induction p with
  | nil => rfl
  | cons c p' ih => simp [strStarts, ih]

lemma stripOpeningFence_append (s : Str) :
    stripOpeningFence ("```tsv".data ++ s) = s.dropWhile jsWs := by
  rw [stripOpeningFence, if_pos (strStarts_append _ s)]
  rfl

lemma stripOpeningFence_no_backtick (s : Str) (h : '`' ∉ s) :
    stripOpeningFence s = s := by
  match s with
  | [] => rfl
  | c :: s' =>
    have hc : c ≠ '`' := fun hcc => h (hcc ▸ List.mem_cons_self c s')
    have : ¬ ('`' == c) := by simp [beq_iff_eq]; exact fun hh => hc hh.symm
    simp [stripOpeningFence, strStarts, this]

lemma unlines_head? (l : Str) (hl : l ≠ []) (ls : List Str) :
    (unlines (l :: ls)).head? = l.head? := by
  match ls with
  | [] => rfl
  | l2 :: ls' =>
    rw [unlines_cons]
    match l, hl with
    | c :: l', _ => rfl

lemma unlines_getLast? (ls : List Str) (l : Str) (hl : ls.getLast? = some l)
    (hlne : l ≠ []) : (unlines ls).getLast? = l.getLast? := by
  induction ls with
  | nil => simp at hl
  | cons x rest ih =>
    match rest with
    | [] =>
      simp only [List.getLast?_singleton, Option.some.injEq] at hl
      subst hl
      rfl
    | r :: rest' =>
      rw [List.getLast?_cons_cons] at hl
      have hrec := ih hl
      rw [unlines_cons]
      have hu : unlines (r :: rest') ≠ [] := by
        intro hempty
        rw [hempty] at hrec
        have : (l.getLast?).isSome := by
          match l, hlne with
          | c :: l', _ => simp [List.getLast?_eq_getLast_of_ne_nil (List.cons_ne_nil c l')]
        rw [← hrec] at this
        simp at this
      rw [List.getLast?_append_of_ne_nil x (by simp)]
      match hu2 : unlines (r :: rest'), hu with
      | c :: u', _ =>
        rw [List.getLast?_cons_cons, ← hu2, hrec]

/-- Drop the maximal run of empty lines at the end of a line list. -/
def dropTrailingEmpties : List Str → List Str
  | [] => []
  | l :: rest =>
    match dropTrailingEmpties rest with
    | [] => if l = [] then [] else [l]
    | r => l :: r

lemma dropTrailingEmpties_spec (body : List Str) :
    ∃ k, body = dropTrailingEmpties body ++ List.replicate k [] ∧
      ∀ l, (dropTrailingEmpties body).getLast? = some l → l ≠ [] := by
  induction body with
  | nil => exact ⟨0, rfl, by simp [dropTrailingEmpties]⟩
  | cons l rest ih =>
    obtain ⟨k, hk, hlast⟩ := ih
    match hd : dropTrailingEmpties rest with
    | [] =>
      rw [hd] at hk
      simp only [List.nil_append] at hk
      by_cases hl : l = []
      · have hdte : dropTrailingEmpties (l :: rest) = [] := by
          simp [dropTrailingEmpties, hd, hl]
        refine ⟨k + 1, ?_, ?_⟩
        · rw [hdte, List.nil_append, hl, hk, List.replicate_succ]
        · rw [hdte]; simp
      · have hdte : dropTrailingEmpties (l :: rest) = [l] := by
          simp [dropTrailingEmpties, hd, hl]
        refine ⟨k, ?_, ?_⟩
        · rw [hdte, hk]; simp
        · rw [hdte]
          intro x hx
          simp only [List.getLast?_singleton, Option.some.injEq] at hx
          subst hx
          exact hl
    | r :: rs =>
      refine ⟨k, ?_, ?_⟩
      · simp only [dropTrailingEmpties, hd]
        rw [List.cons_append, ← hd, ← hk]
      · simp only [dropTrailingEmpties, hd]
        intro x hx
        rw [List.getLast?_cons_cons] at hx
        rw [← hd] at hx
        exact hlast x hx

lemma filterMap_filter_none (f : Str → Option ParsedRow) (p : Str → Bool)
    (h : ∀ x, p x = false → f x = none) (l : List Str) :
    (l.filter p).filterMap f = l.filterMap f := by
  induction l with
  | nil => rfl
  | cons x rest ih =>
    by_cases hp : p x
    · rw [List.filter_cons_of_pos hp, List.filterMap_cons, List.filterMap_cons, ih]
    · rw [List.filter_cons_of_neg (by simpa using hp), List.filterMap_cons,
        h x (by simpa using hp), ih]

lemma parseLine_of_not_keep (l : Str) (h : keepLine l = false) :
    parseLine l = none := by
  rw [keepLine] at h
  rw [parseLine]
  by_cases h1 : strStarts "text".data l
  · rw [if_pos h1]
  · rw [if_neg h1]
    simp only [h1 
      ] at h
    simp only [Bool.not_false, Bool.true_and, Bool.not_eq_false'] at h
    rw [if_pos h]

lemma parseLine_replicate_empty (k : Nat) :
    (List.replicate k ([] : Str)).filterMap parseLine = [] := by
  induction k with
  | zero => rfl
  | succ k ih => simp [List.replicate_succ, List.filterMap_cons, parseLine, ih,
      trimChars, dropTrailingWs, strStarts]

lemma unlines_replicate_fence (k : Nat) (f : Str) :
    unlines (List.replicate k [] ++ [[], f]) =
      List.replicate k '\n' ++ '\n' :: f := by
  induction k with
  | zero => simp [unlines_cons, unlines]
  | succ k ih =>
    rw [List.replicate_succ, List.cons_append]
    have hne : List.replicate k ([] : Str) ++ [[], f] ≠ [] := by simp
    match hcons : List.replicate k ([] : Str) ++ [[], f], hne with
    | x :: xs, _ =>
      rw [unlines_cons, ← hcons, ih, List.replicate_succ]
      simp

lemma cons_replicate_comm (a : Char) (k : Nat) (X : Str) :
    a :: (List.replicate k a ++ X) = List.replicate k a ++ a :: X := by
  induction k with
  | zero => rfl
  | succ k ih => simp [List.replicate_succ, ih]

lemma dropWhile_eq_self_of_head (p : Char → Bool) (s : Str)
    (h : ∀ c, s.head? = some c → p c = false) : s.dropWhile p = s := by
  match s with
  | [] => rfl
  | c :: s' =>
    have := h c rfl
    simp [List.dropWhile, this]

lemma getLast?_mem' {l : List α} {a : α} (h : l.getLast? = some a) : a ∈ l := by
  obtain ⟨hne, rfl⟩ := List.mem_getLast?_eq_getLast (Option.mem_def.mpr h)
  exact List.getLast_mem hne

lemma no_backtick_unlines (ls : List Str) (h : ∀ l ∈ ls, '`' ∉ l) :
    '`' ∉ unlines ls := by
  intro hmem
  rcases mem_unlines ls '`' hmem with hnl | ⟨l, hl, hxl⟩
  · exact absurd hnl (by decide)
  · exact h l hl hxl

lemma keepLine_nil : keepLine [] = false := by decide

lemma filter_keepLine_replicate (k : Nat) :
    (List.replicate k ([] : Str)).filter keepLine = [] := by
  induction k with
  | zero => rfl
  | succ k ih => rw [List.replicate_succ, List.filter_cons_of_neg (by simp [keepLine_nil]), ih]

/-- Line well-formedness for the parser-tolerance property: a genuine
single line (no embedded newline), no backtick (so it cannot be mistaken
for a fence), and when non-empty neither starting nor ending in
whitespace. -/
def headOkB (l : Str) : Bool :=
  match l.head? with
  | some c => !jsWs c
  | none => true

def lastOkB (l : Str) : Bool :=
  match l.getLast? with
  | some c => !jsWs c
  | none => true

def lineOk (l : Str) : Prop :=
  '\n' ∉ l ∧ '`' ∉ l ∧ headOkB l = true ∧ lastOkB l = true

instance (l : Str) : Decidable (lineOk l) := by unfold lineOk; infer_instance

lemma trim_ok_lines (ls : List Str) (hne : ls ≠ [])
    (hhead : ∀ c, (unlines ls).head? = some c → jsWs c = false)
    (hlast : ∀ c, (unlines ls).getLast? = some c → jsWs c = false) :
    trimChars (unlines ls) = unlines ls := by
  rw [trimChars, dropWhile_eq_self_of_head _ _ hhead, dropTrailingWs_eq_self _ hlast]

lemma headOkB_spec (l : Str) (h : headOkB l = true) :
    ∀ c, l.head? = some c → jsWs c = false := by
  intro c hc
  rw [headOkB, hc] at h
  simpa using h

lemma lastOkB_spec (l : Str) (h : lastOkB l = true) :
    ∀ c, l.getLast? = some c → jsWs c = false := by
  intro c hc
  rw [lastOkB, hc] at h
  simpa using h

lemma unlines_head_nonws (ls : List Str) (l0 : Str) (h0 : ls.head? = some l0)
    (hl0 : l0 ≠ []) (hok : headOkB l0 = true) :
    ∀ c, (unlines ls).head? = some c → jsWs c = false := by
  match ls, h0 with
  | x :: rest, h0 =>
    have hx : x = l0 := by simpa using h0
    subst hx
    rw [unlines_head? x hl0 rest]
    exact headOkB_spec x hok

lemma unlines_last_nonws (ls : List Str) (ln : Str) (hn : ls.getLast? = some ln)
    (hln : ln ≠ []) (hok : lastOkB ln = true) :
    ∀ c, (unlines ls).getLast? = some c → jsWs c = false := by
  rw [unlines_getLast? ls ln hn hln]
  exact lastOkB_spec ln hok

lemma cleanTsvOutput_of_ok (ls : List Str) (hok : ∀ l ∈ ls, lineOk l)
    (hnonblank : ∀ l ∈ ls, l ≠ []) (hne : ls ≠ []) :
    cleanTsvOutput (unlines ls) = unlines ls := by
  have hnb : '`' ∉ unlines ls := no_backtick_unlines ls fun l hl => (hok l hl).2.1
  rw [cleanTsvOutput, stripOpeningFence_no_backtick _ hnb,
    stripClosingFence_no_backtick _ hnb]
  match ls, hne with
  | l0 :: ls', _ =>
    have h0 : (l0 :: ls').head? = some l0 := rfl
    have hl0 : l0 ≠ [] := hnonblank l0 (by simp)
    obtain ⟨hnl, hln⟩ : ∃ ln, (l0 :: ls').getLast? = some ln := by
      refine ⟨(l0 :: ls').getLast (by simp), ?_⟩
      exact List.getLast?_eq_getLast_of_ne_nil _
    have hmem := getLast?_mem' hln
    exact trim_ok_lines _ (by simp)
      (unlines_head_nonws _ l0 h0 hl0 (hok l0 (by simp)).2.2.1)
      (unlines_last_nonws _ hnl hln (hnonblank _ hmem) (hok _ hmem).2.2.2)

lemma parse_unlines_plain (ls : List Str) (hok : ∀ l ∈ ls, lineOk l)
    (hnonblank : ∀ l ∈ ls, l ≠ []) :
    parseClassificationOutput (unlines ls) = ls.filterMap parseLine := by
  match ls with
  | [] => rfl
  | l0 :: ls' =>
    rw [parseClassificationOutput,
      cleanTsvOutput_of_ok _ hok hnonblank (by simp),
      splitOnChar_unlines _ (by simp) fun l hl => (hok l hl).1]

lemma getLast?_cons' (x : α) (l : List α) :
    (x :: l).getLast? = some (l.getLast?.getD x) := by
  match l with
  | [] => rfl
  | y :: l' =>
    rw [List.getLast?_cons_cons,
      List.getLast?_eq_getLast_of_ne_nil (show (y :: l') ≠ [] by simp)]
    rfl

/-- Claim C7: for every response body (a list of well-formed single
lines: no embedded newline, no backtick, non-blank lines neither
starting nor ending in whitespace), parsing the response wrapped in a
```tsv fenced code block with a re-emitted header line (any line
starting with "text") and a blank line yields exactly the same parsed
rows as parsing the unwrapped, header-stripped, blank-stripped
equivalent.  Blank body lines are tolerated anywhere (the filter drops
them on both sides).  The explanation parser shares the same per-line
treatment (`parseLine`), so the property carries over to it. -/
theorem parseClassification_fence_tolerant (hdr : Str) (bodyLines : List Str)
    (hstart : strStarts "text".data hdr = true) (hhdr : lineOk hdr)
    (hbody : ∀ l ∈ bodyLines, lineOk l) :
    parseClassificationOutput
        (unlines ("```tsv".data :: hdr :: (bodyLines ++ [[], "```".data]))) =
      parseClassificationOutput (unlines (bodyLines.filter keepLine)) := by
  obtain ⟨k, hdec, hcorelast⟩ := dropTrailingEmpties_spec bodyLines
  generalize hcg : dropTrailingEmpties bodyLines = core at hdec hcorelast
  have hcoreSub : ∀ l ∈ core, l ∈ bodyLines := by
    intro l hl; rw [hdec]; exact List.mem_append_left _ hl
  have hcoreOk : ∀ l ∈ core, lineOk l := fun l hl => hbody l (hcoreSub l hl)
  have hhdrne : hdr ≠ [] := by
    intro h; rw [h] at hstart; exact absurd hstart (by decide)
  -- the last line of `hdr :: core` is non-empty and ends in non-whitespace
  have hlnlast : (hdr :: core).getLast? = some (core.getLast?.getD hdr) :=
    getLast?_cons' hdr core
  have hlnne : core.getLast?.getD hdr ≠ [] := by
    cases hgl : core.getLast? with
    | none => simpa using hhdrne
    | some x => simpa using hcorelast x hgl
  have hlnok : lastOkB (core.getLast?.getD hdr) = true := by
    cases hgl : core.getLast? with
    | none => simpa using hhdr.2.2.2
    | some x =>
      simp only [Option.getD_some]
      exact (hcoreOk x (getLast?_mem' hgl)).2.2.2
  have hMnb : '`' ∉ unlines (hdr :: core) := by
    refine no_backtick_unlines _ ?_
    intro l hl
    rcases List.mem_cons.mp hl with rfl | hl2
    · exact hhdr.2.1
    · exact (hcoreOk l hl2).2.1
  have hMheadnonws : ∀ c, (unlines (hdr :: core)).head? = some c → jsWs c = false :=
    unlines_head_nonws _ hdr rfl hhdrne hhdr.2.2.1
  have hMlastnonws : ∀ c, (unlines (hdr :: core)).getLast? = some c → jsWs c = false :=
    unlines_last_nonws _ _ hlnlast hlnne hlnok
  have hMne2 : unlines (hdr :: core) ≠ [] := by
    intro h
    have hh := unlines_head? hdr hhdrne core
    rw [h] at hh
    match hdr, hhdrne with
    | c :: _, _ => simp at hh
  have happ_head : ∀ (T : Str) c,
      (unlines (hdr :: core) ++ T).head? = some c → jsWs c = false := by
    intro T c hc
    rw [List.head?_append_of_ne_nil _ hMne2] at hc
    exact hMheadnonws c hc
  have hnb2 : '`' ∉ unlines (hdr :: core) ++ List.replicate k '\n' := by
    intro hmem
    rcases List.mem_append.mp hmem with h1 | h2
    · exact hMnb h1
    · rcases List.mem_replicate.mp h2 with ⟨_, habs⟩
      exact absurd habs (by decide)
  have hwsT : ∀ c ∈ (List.replicate k '\n' ++ ['\n'] : Str), jsWs c = true := by
    intro c hcmem
    rcases List.mem_append.mp hcmem with h1 | h2
    · rcases List.mem_replicate.mp h1 with ⟨_, rfl⟩; rfl
    · simp only [List.mem_singleton] at h2; subst h2; rfl
  -- unfold the wrapped string
  have hw1 : unlines ("```tsv".data :: hdr :: (bodyLines ++ [[], "```".data])) =
      "```tsv".data ++ '\n' :: unlines (hdr :: (bodyLines ++ [[], "```".data])) := by
    rw [unlines_cons]
  have hw2 : unlines (hdr :: (bodyLines ++ [[], "```".data])) =
      unlines (hdr :: core) ++
        '\n' :: (List.replicate k '\n' ++ '\n' :: "```".data) := by
    conv_lhs => rw [hdec]
    rw [List.append_assoc,
      show hdr :: (core ++ (List.replicate k [] ++ [[], "```".data])) =
        (hdr :: core) ++ (List.replicate k [] ++ [[], "```".data]) from by simp,
      unlines_append _ (by simp) _ (by simp), unlines_replicate_fence]
  -- the cleaned wrapped string is exactly `unlines (hdr :: core)`
  have hclean : cleanTsvOutput
      (unlines ("```tsv".data :: hdr :: (bodyLines ++ [[], "```".data]))) =
      unlines (hdr :: core) := by
    rw [hw1, hw2, cleanTsvOutput, stripOpeningFence_append]
    rw [List.dropWhile_cons_of_pos (show jsWs '\n' = true from rfl)]
    rw [dropWhile_eq_self_of_head jsWs _ (happ_head _)]
    rw [cons_replicate_comm '\n' k ('\n' :: "```".data), ← List.append_assoc]
    rw [stripClosingFence_append _ hnb2]
    rw [List.append_assoc, trimChars]
    rw [dropWhile_eq_self_of_head jsWs _ (happ_head _)]
    rw [dropTrailingWs_append_ws _ _ hwsT]
    exact dropTrailingWs_eq_self _ hMlastnonws
  -- both sides equal the plain filterMap over `core`
  have hLHS : parseClassificationOutput
      (unlines ("```tsv".data :: hdr :: (bodyLines ++ [[], "```".data]))) =
      core.filterMap parseLine := by
    rw [parseClassificationOutput, hclean,
      splitOnChar_unlines _ (by simp) ?_, List.filterMap_cons,
      show parseLine hdr = none from by rw [parseLine, if_pos hstart]]
    intro l hl
    rcases List.mem_cons.mp hl with rfl | hl2
    · exact hhdr.1
    · exact (hcoreOk l hl2).1
  have hfilter : bodyLines.filter keepLine = core.filter keepLine := by
    conv_lhs => rw [hdec]
    rw [List.filter_append, filter_keepLine_replicate, List.append_nil]
  have hRHS : parseClassificationOutput (unlines (bodyLines.filter keepLine)) =
      core.filterMap parseLine := by
    rw [hfilter]
    rw [parse_unlines_plain _ ?_ ?_]
    · exact filterMap_filter_none parseLine keepLine parseLine_of_not_keep core
    · intro l hl
      exact hcoreOk l (List.mem_of_mem_filter hl)
    · intro l hl
      have hkeep : keepLine l = true := List.of_mem_filter hl
      intro habs
      subst habs
      rw [keepLine_nil] at hkeep
      exact absurd hkeep (by decide)
  rw [hLHS, hRHS]

/-- Witness for `parseClassification_fence_tolerant`: the example of the
specification.  A ```tsv-fenced block with the header line and the line
`hello<TAB>for<TAB>explains X` followed by a blank line parses to the
single row with text `hello`, label `for`, explanation `explains X` —
the same as the unwrapped, header-stripped, blank-stripped input. -/
theorem parseClassification_fence_tolerant_witness :
    parseClassificationOutput
        (unlines ("```tsv".data :: "text\tlabel\tlabel_explanation".data ::
          (["hello\tfor\texplains X".data] ++ [[], "```".data]))) =
      parseClassificationOutput
        (unlines (["hello\tfor\texplains X".data].filter keepLine)) ∧
    parseClassificationOutput
        (unlines (["hello\tfor\texplains X".data].filter keepLine)) =
      [⟨"hello".data, "for".data, "explains X".data⟩] :=
  ⟨parseClassification_fence_tolerant "text\tlabel\tlabel_explanation".data
      ["hello\tfor\texplains X".data] (by decide) (by decide) (by decide),
    by decide⟩

/-! ### Spreadsheet merge frame conditions (claim C10) -/

/-- The last element of a list satisfying a predicate (the entry that
wins in a JavaScript Map built by repeated `set`). -/
def lastWith (p : α → Bool) : List α → Option α
  | [] => none
  | x :: rest =>
    match lastWith p rest with
    | some y => some y
    | none => if p x then some x else none

lemma jsLookup_cons (q : Str × β) (m : List (Str × β)) (k' : Str) :
    jsLookup (q :: m) k' = if q.1 = k' then some q.2 else jsLookup m k' := by
  by_cases h : q.1 = k'
  · rw [jsLookup, List.find?_cons_of_pos _ (by simp [h]), if_pos h]
    rfl
  · rw [jsLookup, List.find?_cons_of_neg _ (by simp [h]), if_neg h]
    rfl

lemma jsLookup_jsSet (m : List (Str × β)) (k k' : Str) (v : β) :
    jsLookup (jsSet m k v) k' = if k' = k then some v else jsLookup m k' := by
  induction m with
  | nil =>
    rw [jsSet, jsLookup_cons]
    by_cases h : k' = k
    · rw [if_pos h.symm, if_pos h]
    · rw [if_neg (fun hc => h hc.symm), if_neg h]
  | cons p rest ih =>
    rw [jsSet]
    by_cases hp : p.1 = k
    · rw [if_pos hp, jsLookup_cons]
      by_cases h : k' = k
      · rw [if_pos h.symm, if_pos h]
      · rw [if_neg (fun hc => h hc.symm), if_neg h, jsLookup_cons,
          if_neg (fun hc => h (hp ▸ hc).symm)]
    · rw [if_neg hp, jsLookup_cons]
      by_cases hq : p.1 = k'
      · have h : ¬ k' = k := fun hc => hp (hq.trans hc)
        rw [if_pos hq, if_neg h, jsLookup_cons, if_pos hq]
      · rw [if_neg hq, ih, jsLookup_cons, if_neg hq]

lemma jsLookup_build (key : α → Str) (val : α → β) (t : Str) :
    ∀ (items : List α) (m0 : List (Str × β)),
      jsLookup (items.foldl (fun m x => jsSet m (key x) (val x)) m0) t =
        (match lastWith (fun x => decide (key x = t)) items with
          | some x => some (val x)
          | none => jsLookup m0 t) := by
  intro items
  induction items with
  | nil => intro m0; rfl
  | cons x rest ih =>
    intro m0
    rw [List.foldl_cons, ih (jsSet m0 (key x) (val x))]
    rw [lastWith]
    cases hlw : lastWith (fun x => decide (key x = t)) rest with
    | some y => rfl
    | none =>
      simp only []
      rw [jsLookup_jsSet]
      by_cases h : key x = t
      · rw [if_pos h.symm, if_pos (by simpa using h)]
      · rw [if_neg (fun hc => h hc.symm), if_neg (by simpa using h)]

lemma setCell_same (r : SheetRow) (c : Nat) (v : Str) : setCell r c v c = some v := by
  simp [setCell]

lemma setCell_other (r : SheetRow) (c c2 : Nat) (v : Str) (h : c2 ≠ c) :
    setCell r c v c2 = r c2 := by
  simp [setCell, h]

/-- Claim C10: the spreadsheet merge steps write only the designated
columns — the column-7 header cell and column 7 of body rows for
`updateExcelWithExplanations`, the column-8/9 header cells and columns 8
and 9 of body rows for `updateExcelWithClassifications`.  A body row is
written only when its trimmed column-1 text equals the trimmed text of
some parsed result, the last such result winning on duplicates (and, for
explanations, only when that explanation is truthy); every other cell of
every row is carried to the output unchanged, and the row count is
preserved. -/
theorem updateExcel_frame (ws : List SheetRow) (explanations : List ExplRow)
    (classifications : List ParsedRow) :
    ((updateExcelWithExplanations ws explanations).length = ws.length ∧
      ∀ i r r', ws[i]? = some r →
        (updateExcelWithExplanations ws explanations)[i]? = some r' →
        (∀ c, c ≠ 7 → r' c = r c) ∧
        (1 ≤ i → r' 7 =
          (match lastWith
              (fun it => decide (trimChars it.text = cellTrimmed r 1))
              explanations with
            | some it =>
              if it.explanation.isEmpty then r 7 else some it.explanation
            | none => r 7)) ∧
        (i = 0 → r' 7 = some "human_label_explanation".data)) ∧
    ((updateExcelWithClassifications ws classifications).length = ws.length ∧
      ∀ i r r', ws[i]? = some r →
        (updateExcelWithClassifications ws classifications)[i]? = some r' →
        (∀ c, c ≠ 8 → c ≠ 9 → r' c = r c) ∧
        (1 ≤ i → r' 8 =
          (match lastWith
              (fun it => decide (trimChars it.text = cellTrimmed r 1))
              classifications with
            | some it => some it.label
            | none => r 8) ∧
          r' 9 =
          (match lastWith
              (fun it => decide (trimChars it.text = cellTrimmed r 1))
              classifications with
            | some it => some it.explanation
            | none => r 9)) ∧
        (i = 0 → r' 8 = some "llm_label".data ∧
          r' 9 = some "llm_label_explanation".data)) := by
  constructor
  · constructor
    · cases ws <;> simp [updateExcelWithExplanations]
    · intro i r r' hr hr'
      match ws, i with
      | [], _ => simp at hr
      | h0 :: body, 0 =>
        simp only [List.getElem?_cons_zero, Option.some.injEq] at hr
        simp only [updateExcelWithExplanations, List.getElem?_cons_zero,
          Option.some.injEq] at hr'
        subst hr
        subst hr'
        refine ⟨fun c hc => setCell_other _ _ _ _ hc, fun habs => by omega,
          fun _ => setCell_same _ _ _⟩
      | h0 :: body, j + 1 =>
        simp only [List.getElem?_cons_succ] at hr
        simp only [updateExcelWithExplanations, List.getElem?_cons_succ,
          List.getElem?_map, hr, Option.map_some', Option.some.injEq] at hr'
        subst hr'
        rw [jsLookup_build (fun it => trimChars it.text)
          (fun it => it.explanation) (cellTrimmed r 1) explanations []]
        cases hlw : lastWith
            (fun it => decide (trimChars it.text = cellTrimmed r 1))
            explanations with
        | none =>
          exact ⟨fun c _ => rfl, fun _ => rfl, fun habs => by omega⟩
        | some it =>
          simp only []
          by_cases he : it.explanation.isEmpty
          · rw [if_pos he]
            exact ⟨fun c _ => rfl, fun _ => by rw [if_pos he], fun habs => by omega⟩
          · rw [if_neg he]
            refine ⟨fun c hc => setCell_other _ _ _ _ hc,
              fun _ => by rw [if_neg he]; exact setCell_same _ _ _,
              fun habs => by omega⟩
  · constructor
    · cases ws <;> simp [updateExcelWithClassifications]
    · intro i r r' hr hr'
      match ws, i with
      | [], _ => simp at hr
      | h0 :: body, 0 =>
        simp only [List.getElem?_cons_zero, Option.some.injEq] at hr
        simp only [updateExcelWithClassifications, List.getElem?_cons_zero,
          Option.some.injEq] at hr'
        subst hr
        subst hr'
        refine ⟨?_, fun habs => by omega, fun _ => ⟨?_, ?_⟩⟩
        · intro c hc8 hc9
          rw [setCell_other _ _ _ _ hc9, setCell_other _ _ _ _ hc8]
        · rw [setCell_other _ _ _ _ (by omega), setCell_same]
        · exact setCell_same _ _ _
      | h0 :: body, j + 1 =>
        simp only [List.getElem?_cons_succ] at hr
        simp only [updateExcelWithClassifications, List.getElem?_cons_succ,
          List.getElem?_map, hr, Option.map_some', Option.some.injEq] at hr'
        subst hr'
        rw [jsLookup_build (fun it => trimChars it.text)
          (fun it => (it.label, it.explanation)) (cellTrimmed r 1)
          classifications []]
        cases hlw : lastWith
            (fun it => decide (trimChars it.text = cellTrimmed r 1))
            classifications with
        | none =>
          exact ⟨fun c _ _ => rfl, fun _ => ⟨rfl, rfl⟩, fun habs => by omega⟩
        | some it =>
          simp only []
          refine ⟨?_, fun _ => ⟨?_, ?_⟩, fun habs => by omega⟩
          · intro c hc8 hc9
            rw [setCell_other _ _ _ _ hc9, setCell_other _ _ _ _ hc8]
          · rw [setCell_other _ _ _ _ (by omega), setCell_same]
          · exact setCell_same _ _ _

/-- A two-row worksheet: a header row and one body row whose column-1
text is ` hello ` (trimming to `hello`). -/
def wsW : List SheetRow :=
  [fun c => if c = 1 then some "text".data else none,
    fun c => if c = 1 then some " hello ".data else none]

/-- Two parsed explanations with the same trimmed text; the last wins. -/
def explW : List ExplRow := [⟨"hello".data, "E1".data⟩, ⟨"hello ".data, "E2".data⟩]

/-- One parsed classification. -/
def clsW : List ParsedRow := [⟨"hello".data, "for".data, "C1".data⟩]

/-- Witness for `updateExcel_frame`: on the concrete worksheet, column 6
of the body row is untouched by the explanation merge, while column 7
receives the last matching explanation. -/
theorem updateExcel_frame_witness :
    (6 ≠ 7 ∧
      ((updateExcelWithExplanations wsW explW)[1]?.getD (fun _ => none)) 6 =
        (wsW[1]?.getD (fun _ => none)) 6) ∧
    ((updateExcelWithExplanations wsW explW)[1]?.getD (fun _ => none)) 7 =
      some "E2".data :=
  ⟨⟨by decide,
      ((updateExcel_frame wsW explW clsW).1.2 1
        (wsW[1]?.getD (fun _ => none))
        ((updateExcelWithExplanations wsW explW)[1]?.getD (fun _ => none))
        (by rfl) (by rfl)).1 6 (by decide)⟩,
    by decide⟩

/-! ### Inter-model agreement (claim C1) -/

lemma lastWith_mem (p : α → Bool) :
    ∀ (l : List α) (x : α), lastWith p l = some x → x ∈ l := by
  intro l
  induction l with
  | nil => intro x hx; simp [lastWith] at hx
  | cons y rest ih =>
    intro x hx
    rw [lastWith] at hx
    cases hlw : lastWith p rest with
    | some z =>
      rw [hlw] at hx
      simp only [Option.some.injEq] at hx
      subst hx
      exact List.mem_cons_of_mem y (ih z hlw)
    | none =>
      rw [hlw] at hx
      by_cases hp : p y
      · rw [if_pos hp] at hx
        simp only [Option.some.injEq] at hx
        subst hx
        exact List.mem_cons_self y rest
      · rw [if_neg hp] at hx
        exact absurd hx (by simp)

lemma jsSet_fresh (m : List (Str × β)) (k : Str) (v : β)
    (h : ∀ p ∈ m, p.1 ≠ k) : jsSet m k v = m ++ [(k, v)] := by
  induction m with
  | nil => rfl
  | cons p rest ih =>
    rw [jsSet, if_neg (h p (List.mem_cons_self p rest)),
      ih fun q hq => h q (List.mem_cons_of_mem p hq)]
    rfl

lemma build_map (key : α → Str) (val : α → β) :
    ∀ (items : List α) (m0 : List (Str × β)),
      (∀ x ∈ items, ∀ p ∈ m0, p.1 ≠ key x) → (items.map key).Nodup →
      items.foldl (fun m x => jsSet m (key x) (val x)) m0 =
        m0 ++ items.map fun x => (key x, val x) := by
  intro items
  induction items with
  | nil => intro m0 _ _; simp
  | cons x rest ih =>
    intro m0 hfresh hnd
    rw [List.foldl_cons,
      jsSet_fresh m0 (key x) (val x) (hfresh x (List.mem_cons_self x rest))]
    rw [List.map_cons, List.nodup_cons] at hnd
    rw [ih (m0 ++ [(key x, val x)]) ?_ hnd.2]
    · simp
    · intro y hy p hp
      rcases List.mem_append.mp hp with hp1 | hp2
      · exact hfresh y (List.mem_cons_of_mem x hy) p hp1
      · simp only [List.mem_singleton] at hp2
        subst hp2
        intro habs
        simp only at habs
        refine hnd.1 ?_
        rw [habs]
        exact List.mem_map_of_mem key hy

lemma foldl_map_comm (g : γ → Str × β → Str × β) :
    ∀ (l : List γ) (m : List (Str × β)),
      l.foldl (fun m it => m.map (g it)) m =
        m.map fun p => l.foldl (fun e it => g it e) p := by
  intro l
  induction l with
  | nil => intro m; simp
  | cons it rest ih =>
    intro m
    rw [List.foldl_cons, ih (m.map (g it)), List.map_map]
    rfl

lemma mergeModel2_collapse (e : CompareEntry) (a b : DataRow) :
    mergeModel2 (mergeModel2 e a) b = mergeModel2 e b := rfl

lemma foldl_merge (t : Str) (e : CompareEntry) (d2 : List DataRow) :
    d2.foldl
        (fun pe it => if pe.1 = it.text then (pe.1, mergeModel2 pe.2 it) else pe)
        (t, e) =
      (t, match lastWith (fun r2 => decide (r2.text = t)) d2 with
          | some r2 => mergeModel2 e r2
          | none => e) := by
  induction d2 generalizing e with
  | nil => rfl
  | cons it rest ih =>
    rw [List.foldl_cons, lastWith]
    by_cases ht : t = it.text
    · rw [if_pos ht, ih (mergeModel2 e it)]
      cases hlw : lastWith (fun r2 => decide (r2.text = t)) rest with
      | some r2 => rfl
      | none => simp [ht]
    · rw [if_neg ht, ih e]
      cases hlw : lastWith (fun r2 => decide (r2.text = t)) rest with
      | some r2 => rfl
      | none => simp [show ¬ (it.text = t) from fun habs => ht habs.symm]

/-- The counting predicate of the agreement loop of `compareModels`. -/
def agreeEntry (p : Str × CompareEntry) : Bool :=
  match p.2.model1Label, p.2.model2Label with
  | some l1, some l2 => !l1.isEmpty && !l2.isEmpty && decide (l1 = l2)
  | _, _ => false

lemma compareStep_fst (acc : Nat × List Disagreement)
    (p : Str × CompareEntry) :
    (compareStep acc p).1 = acc.1 + (if agreeEntry p then 1 else 0) := by
  rcases hm1 : p.2.model1Label with _ | l1 <;>
    rcases hm2 : p.2.model2Label with _ | l2 <;>
    simp [compareStep, agreeEntry, hm1, hm2]
  by_cases h1 : l1 = [] <;> by_cases h2 : l2 = [] <;>
    by_cases heq : l1 = l2 <;> simp_all

lemma compareCount_fst_aux (m : List (Str × CompareEntry)) :
    ∀ (a : Nat) (ds : List Disagreement),
      (m.foldl compareStep (a, ds)).1 = a + m.countP agreeEntry := by
  induction m with
  | nil => intro a ds; simp
  | cons p rest ih =>
    intro a ds
    rw [List.foldl_cons]
    have hstep := ih (compareStep (a, ds) p).1 (compareStep (a, ds) p).2
    rw [Prod.mk.eta] at hstep
    rw [hstep, compareStep_fst, List.countP_cons]
    by_cases hp : agreeEntry p <;> simp [hp] <;> omega

lemma compareCount_fst (m : List (Str × CompareEntry)) :
    (compareCount m).1 = m.countP agreeEntry := by
  rw [compareCount, compareCount_fst_aux m 0 []]
  omega

lemma countP_congr_mem (p q : α → Bool) (l : List α)
    (h : ∀ a ∈ l, p a = q a) : l.countP p = l.countP q := by
  induction l with
  | nil => rfl
  | cons x rest ih =>
    rw [List.countP_cons, List.countP_cons, h x (List.mem_cons_self x rest),
      ih fun a ha => h a (List.mem_cons_of_mem x ha)]

lemma compareModels_map1 (d1 : List DataRow)
    (hnd : (d1.map fun r => r.text).Nodup) :
    d1.foldl
        (fun m it =>
          jsSet m it.text
            ⟨it.humanLabel, some it.llmLabel, it.llmExplanation, none, none⟩)
        [] =
      d1.map fun it => (it.text,
        (⟨it.humanLabel, some it.llmLabel, it.llmExplanation, none, none⟩ :
          CompareEntry)) := by
  have h := build_map (fun it : DataRow => it.text)
    (fun it : DataRow =>
      (⟨it.humanLabel, some it.llmLabel, it.llmExplanation, none, none⟩ :
        CompareEntry))
    d1 [] (by simp) hnd
  simpa using h

lemma compareModels_map2 (d2 : List DataRow) (m : List (Str × CompareEntry)) :
    d2.foldl
        (fun m it =>
          m.map fun p => if p.1 = it.text then (p.1, mergeModel2 p.2 it) else p)
        m =
      m.map fun p => (p.1,
        match lastWith (fun r2 => decide (r2.text = p.1)) d2 with
        | some r2 => mergeModel2 p.2 r2
        | none => p.2) := by
  have h := foldl_map_comm
    (fun it (p : Str × CompareEntry) =>
      if p.1 = it.text then (p.1, mergeModel2 p.2 it) else p) d2 m
  rw [h]
  refine List.map_congr_left ?_
  intro p _
  have hm := foldl_merge p.1 p.2 d2
  rw [Prod.mk.eta] at hm
  exact hm

lemma compareModels_rate_eq (d1 d2 : List DataRow)
    (hnd : (d1.map fun r => r.text).Nodup)
    (h1 : ∀ r ∈ d1, r.llmLabel ≠ [])
    (h2 : ∀ r ∈ d2, r.llmLabel ≠ []) :
    (compareModels d1 d2).1 =
      ((d1.countP fun r1 =>
        match lastWith (fun r2 => decide (r2.text = r1.text)) d2 with
        | some r2 => decide (r1.llmLabel = r2.llmLabel)
        | none => false : Nat) : ℚ) / (d1.length : ℚ) * 100 := by
  rw [compareModels]
  simp only [compareModels_map1 d1 hnd, compareModels_map2, List.map_map,
    compareCount_fst, List.countP_map, List.length_map]
  congr 2
  norm_cast
  refine countP_congr_mem _ _ d1 ?_
  intro r1 hr1
  simp only [Function.comp]
  cases hlw : lastWith (fun r2 => decide (r2.text = r1.text)) d2 with
  | none =>
    simp only [agreeEntry]
  | some r2 =>
    have hr2mem := lastWith_mem _ d2 r2 hlw
    simp only [agreeEntry, mergeModel2]
    have e1 : ¬ r1.llmLabel.isEmpty := by
      simp [List.isEmpty_iff]
      exact h1 r1 hr1
    have e2 : ¬ r2.llmLabel.isEmpty := by
      simp [List.isEmpty_iff]
      exact h2 r2 hr2mem
    simp [e1, e2]

/-- Claim C1 (amended): `compareModels` returns an `agreementRate` whose
numerator counts the distinct texts of the first result set whose label
equals the label of the last second-set row with the same text, but
whose denominator is the number of distinct texts of the FIRST result
set — rows present only in the first set are counted in the denominator
(they are in `dataMap`), while rows present only in the second set are
excluded.  When both sets carry the same texts, this is the
jointly-present fraction of the original claim (seven agreements out of
ten texts give 70).  Stated for first sets with distinct texts and
non-empty labels on both sides. -/
theorem compareModels_agreementRate (d1 d2 : List DataRow)
    (hnd : (d1.map fun r => r.text).Nodup)
    (h1 : ∀ r ∈ d1, r.llmLabel ≠ [])
    (h2 : ∀ r ∈ d2, r.llmLabel ≠ []) :
    (compareModels d1 d2).1 =
      ((d1.countP fun r1 =>
        match lastWith (fun r2 => decide (r2.text = r1.text)) d2 with
        | some r2 => decide (r1.llmLabel = r2.llmLabel)
        | none => false : Nat) : ℚ) / (d1.length : ℚ) * 100 :=
  compareModels_rate_eq d1 d2 hnd h1 h2

/-- Modelled from the spec: the agreement rate of section 4.5 — "joins
two result sets by `text`, computes the fraction where both models'
predicted labels are identical (of the rows present in both — rows only
in one side are excluded from the denominator)", as a percentage; the
join uses the first row per text on each side. -/
def jointTexts (d1 d2 : List DataRow) : List Str :=
  (dedupKeys (d1.map fun r => r.text)).filter fun t =>
    (d2.map fun r => r.text).contains t

/-- Modelled from the spec: do the two result sets agree on text `t`? -/
def specAgreeAt (d1 d2 : List DataRow) (t : Str) : Bool :=
  match d1.find? (fun r => decide (r.text = t)),
      d2.find? (fun r => decide (r.text = t)) with
  | some r1, some r2 => decide (r1.llmLabel = r2.llmLabel)
  | _, _ => false

/-- Modelled from the spec: the fraction of jointly-present texts on
which the two models agree, as a percentage. -/
def agreementRateSpec (d1 d2 : List DataRow) : ℚ :=
  100 * (((jointTexts d1 d2).filter (specAgreeAt d1 d2)).length : ℚ) /
    ((jointTexts d1 d2).length : ℚ)

/-- First result set of the counterexample: two texts. -/
def cexD1 : List DataRow :=
  [⟨"a".data, "h".data, none, "x".data, none⟩,
    ⟨"b".data, "h".data, none, "x".data, none⟩]

/-- Second result set of the counterexample: only one of the texts. -/
def cexD2 : List DataRow := [⟨"a".data, "h".data, none, "x".data, none⟩]

/-- Claim C1 counterexample: both sets agree on their single
jointly-present text, so the claimed rate is 100, but `compareModels`
divides by the size of `dataMap` — all distinct texts of the first set,
including the one absent from the second set — and returns 50. -/
theorem compareModels_agreementRate_counterexample :
    (compareModels cexD1 cexD2).1 = 50 ∧
    agreementRateSpec cexD1 cexD2 = 100 ∧
    (compareModels cexD1 cexD2).1 ≠ agreementRateSpec cexD1 cexD2 := by
  have hcode : (compareModels cexD1 cexD2).1 = 50 := by
    rw [compareModels_rate_eq cexD1 cexD2 (by decide) (by decide) (by decide)]
    rw [show (cexD1.countP fun r1 =>
        match lastWith (fun r2 => decide (r2.text = r1.text)) cexD2 with
        | some r2 => decide (r1.llmLabel = r2.llmLabel)
        | none => false : Nat) = 1 from by decide]
    rw [show cexD1.length = 2 from rfl]
    norm_num
  have hspec : agreementRateSpec cexD1 cexD2 = 100 := by
    rw [agreementRateSpec]
    rw [show ((jointTexts cexD1 cexD2).filter (specAgreeAt cexD1 cexD2)).length
        = 1 from by decide]
    rw [show (jointTexts cexD1 cexD2).length = 1 from by decide]
    norm_num
  refine ⟨hcode, hspec, ?_⟩
  rw [hcode, hspec]
  norm_num

/-- Ten texts with the first model's labels. -/
def d1W : List DataRow :=
  ["t0", "t1", "t2", "t3", "t4", "t5", "t6", "t7", "t8", "t9"].map fun t =>
    ⟨t.data, "h".data, none, "x".data, none⟩

/-- The same ten texts for the second model, agreeing on seven. -/
def d2W : List DataRow :=
  (["t0", "t1", "t2", "t3", "t4", "t5", "t6"].map fun t =>
    (⟨t.data, "h".data, none, "x".data, none⟩ : DataRow)) ++
  (["t7", "t8", "t9"].map fun t =>
    (⟨t.data, "h".data, none, "y".data, none⟩ : DataRow))

/-- Witness for `compareModels_agreementRate`: two result sets covering
the same ten texts and agreeing on seven of them yield an agreement
rate of 70. -/
theorem compareModels_agreementRate_witness :
    (compareModels d1W d2W).1 = 70 := by
  rw [compareModels_agreementRate d1W d2W (by decide) (by decide) (by decide)]
  rw [show (d1W.countP fun r1 =>
      match lastWith (fun r2 => decide (r2.text = r1.text)) d2W with
      | some r2 => decide (r1.llmLabel = r2.llmLabel)
      | none => false : Nat) = 7 from by decide]
  rw [show d1W.length = 10 from by decide]
  norm_num


/-! ### Claim C6: the accuracy engine -/

lemma tallyStep_totalCorrect (t : Tally) (r : DataRow) :
    (tallyStep t r).totalCorrect =
      t.totalCorrect + (if r.humanLabel = r.llmLabel then 1 else 0) := by
  by_cases h : r.humanLabel = r.llmLabel <;> simp [tallyStep, h]

lemma tallyStep_matrix (t : Tally) (r : DataRow) :
    (tallyStep t r).matrix = matrixBump t.matrix r.humanLabel r.llmLabel := by
  by_cases h : r.humanLabel = r.llmLabel <;> simp [tallyStep, h]

lemma statPair_jsSet (m : List (Str × Nat × Nat)) (k k' : Str) (v : Nat × Nat) :
    statPair (jsSet m k v) k' = if k' = k then v else statPair m k' := by
  by_cases h : k' = k <;> simp [statPair, jsLookup_jsSet, h]

lemma lookup0_jsSet (m : List (Str × Nat)) (k k' : Str) (v : Nat) :
    lookup0 (jsSet m k v) k' = if k' = k then v else lookup0 m k' := by
  by_cases h : k' = k <;> simp [lookup0, jsLookup_jsSet, h]

lemma tallyStep_statPair (t : Tally) (r : DataRow) (l : Str) :
    statPair (tallyStep t r).stats l =
      if l = r.humanLabel then
        ((statPair t.stats l).1 + 1,
          (statPair t.stats l).2 + (if r.llmLabel = l then 1 else 0))
      else statPair t.stats l := by
  by_cases h : r.humanLabel = r.llmLabel
  · have hb : (tallyStep t r).stats =
        jsSet (jsSet t.stats r.humanLabel
            ((statPair t.stats r.humanLabel).1 + 1,
              (statPair t.stats r.humanLabel).2))
          r.humanLabel
          ((statPair t.stats r.humanLabel).1 + 1,
            (statPair t.stats r.humanLabel).2 + 1) := by
      simp only [tallyStep, if_pos h, statPair_jsSet, eq_self_iff_true, if_true]
    rw [hb, statPair_jsSet, statPair_jsSet]
    by_cases hl : l = r.humanLabel
    · rw [if_pos hl, if_pos hl, hl, if_pos h.symm]
    · rw [if_neg hl, if_neg hl, if_neg hl]
  · have hb : (tallyStep t r).stats =
        jsSet t.stats r.humanLabel
          ((statPair t.stats r.humanLabel).1 + 1,
            (statPair t.stats r.humanLabel).2) := by
      simp only [tallyStep, if_neg h]
    rw [hb, statPair_jsSet]
    by_cases hl : l = r.humanLabel
    · rw [if_pos hl, if_pos hl, hl, if_neg fun hc => h hc.symm]
      simp
    · rw [if_neg hl, if_neg hl]

lemma tallyFold_totalCorrect (data : List DataRow) (t : Tally) :
    (data.foldl tallyStep t).totalCorrect =
      t.totalCorrect + data.countP (fun r => decide (r.humanLabel = r.llmLabel)) := by
  induction data generalizing t with
  | nil => simp
  | cons r rest ih =>
    simp only [List.foldl_cons, List.countP_cons]
    rw [ih, tallyStep_totalCorrect]
    by_cases h : r.humanLabel = r.llmLabel <;> simp [h] <;> omega

lemma tallyFold_statPair (data : List DataRow) (t : Tally) (l : Str) :
    statPair (data.foldl tallyStep t).stats l =
      ((statPair t.stats l).1 + data.countP (fun r => decide (r.humanLabel = l)),
        (statPair t.stats l).2 +
          data.countP (fun r => decide (r.humanLabel = l) && decide (r.llmLabel = l))) := by
  induction data generalizing t with
  | nil => simp
  | cons r rest ih =>
    simp only [List.foldl_cons, List.countP_cons]
    rw [ih, tallyStep_statPair]
    by_cases h1 : r.humanLabel = l
    · rw [if_pos h1.symm]
      by_cases h2 : r.llmLabel = l <;> simp [h1, h2] <;> omega
    · rw [if_neg fun hc => h1 hc.symm]
      by_cases h2 : r.llmLabel = l <;> simp [h1, h2]

lemma ite_ne_zero_self (x : Nat) (c : Prop) [Decidable c] :
    (if c ∧ x ≠ 0 then x else 0) = if c then x else 0 := by
  by_cases hc : c
  · by_cases hx : x = 0 <;> simp [hc, hx]
  · simp [hc]

lemma fpSum_matrixBump (mx : List (Str × List (Str × Nat))) (a p l : Str) :
    fpSum (matrixBump mx a p) l =
      fpSum mx l + (if a ≠ l ∧ p = l then 1 else 0) := by
  induction mx with
  | nil =>
    rw [show matrixBump [] a p = [(a, [(p, 1)])] from by
      simp [matrixBump, innerRow, jsLookup, jsSet, lookup0]]
    by_cases ha : a = l <;> by_cases hp : p = l <;>
      simp [fpSum, lookup0, jsLookup, ha, hp] <;> simp [List.find?, hp, ha]
  | cons q rest ih =>
    by_cases hq : q.1 = a
    · have hb : matrixBump (q :: rest) a p =
          (a, jsSet q.2 p (lookup0 q.2 p + 1)) :: rest := by
        simp [matrixBump, innerRow, jsLookup_cons, jsSet, hq]
      rw [hb]
      show (if a ≠ l ∧ lookup0 (jsSet q.2 p (lookup0 q.2 p + 1)) l ≠ 0 then
          lookup0 (jsSet q.2 p (lookup0 q.2 p + 1)) l else 0) + fpSum rest l = _
      rw [lookup0_jsSet]
      show _ = (if q.1 ≠ l ∧ lookup0 q.2 l ≠ 0 then lookup0 q.2 l else 0) +
        fpSum rest l + _
      rw [hq, ite_ne_zero_self, ite_ne_zero_self]
      by_cases ha : a = l
      · simp [ha]
      · by_cases hp : l = p
        · subst hp
          simp [ha]
          omega
        · simp [ha, hp, show ¬ p = l from fun hc => hp hc.symm]
    · have hb : matrixBump (q :: rest) a p = q :: matrixBump rest a p := by
        simp [matrixBump, innerRow, jsLookup_cons, jsSet, hq]
      rw [hb]
      show (if q.1 ≠ l ∧ lookup0 q.2 l ≠ 0 then lookup0 q.2 l else 0) +
        fpSum (matrixBump rest a p) l = _
      rw [ih]
      show _ = (if q.1 ≠ l ∧ lookup0 q.2 l ≠ 0 then lookup0 q.2 l else 0) +
        fpSum rest l + _
      omega

lemma tallyFold_fpSum (data : List DataRow) (t : Tally) (l : Str) :
    fpSum (data.foldl tallyStep t).matrix l =
      fpSum t.matrix l +
        data.countP (fun r => !decide (r.humanLabel = l) && decide (r.llmLabel = l)) := by
  induction data generalizing t with
  | nil => simp
  | cons r rest ih =>
    simp only [List.foldl_cons, List.countP_cons]
    rw [ih, tallyStep_matrix, fpSum_matrixBump]
    by_cases h1 : r.humanLabel = l <;> by_cases h2 : r.llmLabel = l <;>
      simp [h1, h2] <;> omega

lemma mem_keys_jsSet (m : List (Str × β)) (k k' : Str) (v : β) :
    k' ∈ (jsSet m k v).map (fun p => p.1) ↔ k' ∈ m.map (fun p => p.1) ∨ k' = k := by
  induction m with
  | nil => simp [jsSet]
  | cons q rest ih =>
    by_cases h : q.1 = k
    · subst h
      simp only [jsSet, eq_self_iff_true, if_true, List.map_cons, List.mem_cons]
      tauto
    · simp only [jsSet, if_neg h, List.map_cons, List.mem_cons, ih]
      tauto

lemma tallyStep_stats_keys (t : Tally) (r : DataRow) (l : Str) :
    l ∈ (tallyStep t r).stats.map (fun p => p.1) ↔
      l ∈ t.stats.map (fun p => p.1) ∨ l = r.humanLabel := by
  by_cases h : r.humanLabel = r.llmLabel <;>
    simp only [tallyStep, h, if_true, if_false, mem_keys_jsSet] <;> tauto

lemma tallyFold_stats_keys (data : List DataRow) (t : Tally) (l : Str) :
    l ∈ (data.foldl tallyStep t).stats.map (fun p => p.1) ↔
      l ∈ t.stats.map (fun p => p.1) ∨ ∃ r ∈ data, l = r.humanLabel := by
  induction data generalizing t with
  | nil => simp
  | cons r rest ih =>
    simp only [List.foldl_cons, ih, tallyStep_stats_keys, List.mem_cons]
    constructor
    · rintro ((hk | hk) | ⟨r2, hr2, hk⟩)
      · exact Or.inl hk
      · exact Or.inr ⟨r, Or.inl rfl, hk⟩
      · exact Or.inr ⟨r2, Or.inr hr2, hk⟩
    · rintro (hk | ⟨r2, hr2 | hr2, hk⟩)
      · exact Or.inl (Or.inl hk)
      · exact Or.inl (Or.inr (hr2 ▸ hk))
      · exact Or.inr ⟨r2, hr2, hk⟩

lemma mem_dedupKeys_aux (l : List Str) (acc : List Str) (k : Str) :
    k ∈ l.foldl (fun acc k => if k ∈ acc then acc else acc ++ [k]) acc ↔
      k ∈ acc ∨ k ∈ l := by
  induction l generalizing acc with
  | nil => simp
  | cons x xs ih =>
    by_cases h : x ∈ acc
    · simp only [List.foldl_cons, if_pos h, ih, List.mem_cons]
      constructor
      · rintro (hk | hk)
        · exact Or.inl hk
        · exact Or.inr (Or.inr hk)
      · rintro (hk | hk | hk)
        · exact Or.inl hk
        · exact Or.inl (hk ▸ h)
        · exact Or.inr hk
    · simp only [List.foldl_cons, if_neg h, ih, List.mem_append,
        List.mem_singleton, List.mem_cons]
      tauto

lemma mem_dedupKeys (l : List Str) (k : Str) : k ∈ dedupKeys l ↔ k ∈ l := by
  simp [dedupKeys, mem_dedupKeys_aux]

lemma mem_allLabelsOf (data : List DataRow) (l : Str) :
    l ∈ allLabelsOf data ↔ ∃ r ∈ data, l = r.humanLabel ∨ l = r.llmLabel := by
  rw [allLabelsOf, mem_dedupKeys, List.mem_append, tallyOf, tallyFold_stats_keys]
  simp only [List.map_nil, List.not_mem_nil, false_or, List.mem_map]
  constructor
  · rintro (⟨r, hr, hk⟩ | ⟨r, hr, hk⟩)
    · exact ⟨r, hr, Or.inl hk⟩
    · exact ⟨r, hr, Or.inr hk.symm⟩
  · rintro ⟨r, hr, hk | hk⟩
    · exact Or.inl ⟨r, hr, hk⟩
    · exact Or.inr ⟨r, hr, hk.symm⟩

lemma jsLookup_map_self (keys : List Str) (f : Str → β) (l : Str) (hl : l ∈ keys) :
    jsLookup (keys.map fun k => (k, f k)) l = some (f l) := by
  induction keys with
  | nil => cases hl
  | cons k ks ih =>
    rcases List.mem_cons.mp hl with h | h
    · subst h
      simp [jsLookup_cons]
    · by_cases hk : k = l
      · subst hk
        simp [jsLookup_cons]
      · simp only [List.map_cons, jsLookup_cons, if_neg hk]
        exact ih h

/-- Modelled from the spec: the per-label statistics of section 4.5
written directly as row counts — TP the rows with actual = predicted =
label, FP the rows with another actual label predicted as the label,
precision TP/(TP+FP), recall TP/total-actual, F1 their harmonic mean,
each defined as 0 on a zero denominator. -/
def specLabelStat (data : List DataRow) (l : Str) : LabelStat :=
  let tp : Nat := data.countP fun r => decide (r.humanLabel = l) && decide (r.llmLabel = l)
  let fp : Nat := data.countP fun r => !decide (r.humanLabel = l) && decide (r.llmLabel = l)
  let tot : Nat := data.countP fun r => decide (r.humanLabel = l)
  let precision : ℚ := if tp + fp > 0 then (tp : ℚ) / ((tp : ℚ) + (fp : ℚ)) else 0
  let rcl : ℚ := if tot > 0 then (tp : ℚ) / (tot : ℚ) else 0
  let f1 : ℚ := if precision + rcl > 0 then 2 * (precision * rcl) / (precision + rcl) else 0
  let acc : ℚ := if tot > 0 then ((tp : ℚ) / (tot : ℚ)) * 100 else 0
  ⟨tot, tp, acc, precision, rcl, f1⟩

/-- Claim C6: for every label in the union of the labels seen as actual
or predicted, `calculateAccuracy` records the per-label statistics given
by precision = TP/(TP+FP), recall = TP/total-actual and
f1 = 2PR/(P+R) — each 0 on a zero denominator — with TP the count of
rows where actual = predicted = label and FP the count of other-actual
rows predicted as the label; and the overall accuracy is the fraction of
rows with actual = predicted, as a percentage. -/
theorem calculateAccuracy_spec (data : List DataRow) (l : Str)
    (hl : ∃ r ∈ data, l = r.humanLabel ∨ l = r.llmLabel) :
    (calculateAccuracy data).accuracy =
      (if data.length > 0 then
        ((data.countP fun r => decide (r.humanLabel = r.llmLabel) : Nat) : ℚ) /
          (data.length : ℚ) * 100
      else 0) ∧
    jsLookup (calculateAccuracy data).labelStats l = some (specLabelStat data l) := by
  have hc : (tallyOf data).totalCorrect =
      data.countP (fun r => decide (r.humanLabel = r.llmLabel)) := by
    have h := tallyFold_totalCorrect data ⟨0, [], []⟩
    simpa [tallyOf] using h
  constructor
  · simp only [calculateAccuracy, hc]
  · have hmem : l ∈ allLabelsOf data := (mem_allLabelsOf data l).mpr hl
    have hls : (calculateAccuracy data).labelStats =
        (allLabelsOf data).map fun k => (k, computeLabelStat (tallyOf data) k) := by
      simp only [calculateAccuracy]
    rw [hls, jsLookup_map_self _ _ _ hmem]
    have hsp : statPair (tallyOf data).stats l =
        (data.countP (fun r => decide (r.humanLabel = l)),
          data.countP (fun r => decide (r.humanLabel = l) && decide (r.llmLabel = l))) := by
      have h := tallyFold_statPair data ⟨0, [], []⟩ l
      simpa [tallyOf, statPair, jsLookup] using h
    have hfp : fpSum (tallyOf data).matrix l =
        data.countP (fun r => !decide (r.humanLabel = l) && decide (r.llmLabel = l)) := by
      have h := tallyFold_fpSum data ⟨0, [], []⟩ l
      simpa [tallyOf, fpSum] using h
    simp only [computeLabelStat, specLabelStat, hsp, hfp]

/-- The four rows of the worked example of section 4.5. -/
def accW : List DataRow :=
  [⟨"t1".data, "A".data, none, "A".data, none⟩,
   ⟨"t2".data, "A".data, none, "B".data, none⟩,
   ⟨"t3".data, "B".data, none, "B".data, none⟩,
   ⟨"t4".data, "B".data, none, "B".data, none⟩]

theorem calculateAccuracy_spec_witness :
    (∃ r ∈ accW, "B".data = r.humanLabel ∨ "B".data = r.llmLabel) ∧
    jsLookup (calculateAccuracy accW).labelStats "B".data =
      some ⟨2, 2, 100, 2/3, 1, 4/5⟩ ∧
    (calculateAccuracy accW).accuracy = 75 := by
  have h := calculateAccuracy_spec accW "B".data (by decide)
  refine ⟨by decide, ?_, ?_⟩
  · rw [h.2]
    have hv : specLabelStat accW "B".data = ⟨2, 2, 100, 2/3, 1, 4/5⟩ := by
      simp only [specLabelStat]
      rw [show (accW.countP fun r =>
        decide (r.humanLabel = "B".data) && decide (r.llmLabel = "B".data)) = 2
        from by decide]
      rw [show (accW.countP fun r =>
        !decide (r.humanLabel = "B".data) && decide (r.llmLabel = "B".data)) = 1
        from by decide]
      rw [show (accW.countP fun r => decide (r.humanLabel = "B".data)) = 2
        from by decide]
      norm_num
    rw [hv]
  · rw [h.1]
    rw [show (accW.countP fun r => decide (r.humanLabel = r.llmLabel)) = 3
      from by decide]
    rw [show accW.length = 4 from by decide]
    norm_num

end LabelExplainer
